import Mathlib

/-!
# workerpools-pubsub: a verification development

Shallow embedding of the three source files of the worker

* `internal/storage/downloader.go` : `Downloader.DownloadDirectory`
* `internal/pubsub/subscriber.go`  : the callback installed by `Subscriber.Receive`
* `cmd/worker/main.go`             : the destination directory derived by the handler

Go strings are sequences of bytes; the only bytes the code inspects are the
ASCII separator `/`, the dot and the underscore, so a string is modelled as a
list of characters.  The collaborators (blob store, local disk, queue) are
modelled by the outcome each of their calls delivers, and every call made to
them is recorded in a trace.
-/

namespace WorkerPools

/-- A Go string. -/
abbrev Str := List Char

/-- The content of a blob or of a local file. -/
abbrev Bytes := List (Fin 256)

/-! ## Package `strings` -/

/-- Go `strings.HasPrefix(s, pre)`. -/
def HasPrefix (s pre : Str) : Bool := pre.isPrefixOf s

/-- Go `strings.HasSuffix(s, suf)`. -/
def HasSuffix (s suf : Str) : Bool := suf.isSuffixOf s

/-- Go `strings.TrimPrefix(s, pre)`: `s` without the leading `pre`, or `s`
itself when it does not start with `pre`. -/
def TrimPrefix (s pre : Str) : Str :=
  if HasPrefix s pre then s.drop pre.length else s

/-! ## Package `path/filepath` (Unix flavour: separator `/`, no volume names) -/

/-- The elements of a path between separators, empty elements included. -/
def splitSlash : Str → List Str
  | [] => [[]]
  | c :: cs =>
    if c = '/' then [] :: splitSlash cs
    else
      match splitSlash cs with
      | [] => [[c]]
      | s :: ss => (c :: s) :: ss

/-- Elements joined by single separators. -/
def joinSlash : List Str → Str
  | [] => []
  | [s] => s
  | s :: t :: ts => s ++ '/' :: joinSlash (t :: ts)

/-- One element processed by `filepath.Clean`.  `out` holds the elements kept
so far, the most recent first.  Empty elements and `.` are dropped; `..`
removes the most recent element that is not itself `..`, is dropped at the
root, and is kept at the start of a path that is not rooted. -/
def cleanStep (rooted : Bool) (out : List Str) (seg : Str) : List Str :=
  if seg = [] ∨ seg = ['.'] then out
  else if seg = ['.', '.'] then
    match out with
    | [] => if rooted then [] else [seg]
    | top :: rest => if top = ['.', '.'] then seg :: out else rest
  else seg :: out

/-- Whether a path starts with the separator. -/
def isRooted : Str → Bool
  | c :: _ => c = '/'
  | [] => false

/-- The elements `filepath.Clean` keeps, in path order. -/
def cleanParts (path : Str) : List Str :=
  ((splitSlash path).foldl (cleanStep (isRooted path)) []).reverse

/-- The path `filepath.Clean` writes out for the kept elements. -/
def render (rooted : Bool) (parts : List Str) : Str :=
  if rooted then '/' :: joinSlash parts
  else if parts = [] then ['.'] else joinSlash parts

/-- Go `filepath.Clean(path)`. -/
def Clean (path : Str) : Str :=
  if path = [] then ['.'] else render (isRooted path) (cleanParts path)

/-- Go `filepath.Join(a, b)` for two elements: empty elements before the
first non-empty one are ignored, the rest is joined by separators and
cleaned; all elements empty gives the empty string. -/
def Join (a b : Str) : Str :=
  if a ≠ [] then Clean (a ++ '/' :: b)
  else if b ≠ [] then Clean b
  else []

/-- The part of a path up to and including its last separator. -/
def uptoLastSlash (path : Str) : Str :=
  (path.reverse.dropWhile (fun c => c ≠ '/')).reverse

/-- The part of a path after its last separator. -/
def afterLastSlash (path : Str) : Str :=
  (path.reverse.takeWhile (fun c => c ≠ '/')).reverse

/-- Go `filepath.Dir(path)`. -/
def Dir (path : Str) : Str := Clean (uptoLastSlash path)

/-- Go `filepath.Base(path)`. -/
def Base (path : Str) : Str :=
  if path = [] then ['.']
  else
    let p := (path.reverse.dropWhile (fun c => c = '/')).reverse
    let q := afterLastSlash p
    if q = [] then ['/'] else q

example : Clean "abc//def//ghi".toList = "abc/def/ghi".toList := by decide
example : Clean "abc/def/../../../ghi/jkl/../../../mno".toList = "../../mno".toList := by decide
example : Clean "/../abc".toList = "/abc".toList := by decide
example : Clean "abc/def/../..".toList = ".".toList := by decide
example : Clean "/abc/def/../../..".toList = "/".toList := by decide
example : Clean "abc/../../././../def".toList = "../../def".toList := by decide
example : Clean "".toList = ".".toList := by decide
example : Clean "//abc//".toList = "/abc".toList := by decide
example : Join "a".toList "".toList = "a".toList := by decide
example : Join "".toList "/x".toList = "/x".toList := by decide
example : Join "/tmp/d".toList "../x".toList = "/tmp/x".toList := by decide
example : Dir "/tmp/d/sub/b.txt".toList = "/tmp/d/sub".toList := by decide
example : Dir "a".toList = ".".toList := by decide
example : Dir "/a".toList = "/".toList := by decide
example : Base "batch/2024-01-01".toList = "2024-01-01".toList := by decide
example : Base "batch/2024-01-01/".toList = "2024-01-01".toList := by decide
example : Base "///".toList = "/".toList := by decide
example : Base "".toList = ".".toList := by decide
example : TrimPrefix "batch/a.txt".toList "batch/".toList = "a.txt".toList := by decide
example : TrimPrefix "other/a.txt".toList "batch/".toList = "other/a.txt".toList := by decide
example : HasSuffix "batch/".toList "/".toList = true := by decide
example : HasSuffix "batch".toList "/".toList = false := by decide

/-! ## `internal/storage/downloader.go` -/

/-- What the collaborators deliver while one listed object is processed:
the name the listing reports and the outcome of each call the loop body can
make for it. -/
structure Listed where
  /-- The name reported by the listing: `attrs.Name`. -/
  name : Str
  /-- Whether `os.MkdirAll` succeeds. -/
  mkdirAll : Bool
  /-- The call `obj.NewReader`: the bytes the stream delivers, or `none` when it fails. -/
  reader : Option Bytes
  /-- Whether `os.Create` succeeds. -/
  create : Bool
  /-- The call `io.Copy`: `none` when every byte is copied, `some k` when it fails
  after `k` bytes have reached the file. -/
  copy : Option Nat
  deriving DecidableEq, Repr

/-- One result of `it.Next()` before `iterator.Done`. -/
inductive Next where
  | object (o : Listed)
  | failure
  deriving DecidableEq, Repr

/-- The calls made to the collaborators. -/
inductive Event where
  /-- The call `bucket.Objects(ctx, &storage.Query{Prefix: prefix})`. -/
  | query (pre : Str)
  /-- The call `it.Next()`. -/
  | next
  /-- The call `os.MkdirAll(dir, 0755)`. -/
  | mkdirAll (dir : Str)
  /-- The call `obj.NewReader(ctx)` for the object of that name, and whether it gave a stream. -/
  | newReader (name : Str) (ok : Bool)
  /-- The call `os.Create(path)`, and whether it gave a file. -/
  | create (path : Str) (ok : Bool)
  /-- The call `io.Copy(file, reader)`, the number of bytes written, and whether it succeeded. -/
  | copy (path : Str) (written : Nat) (ok : Bool)
  /-- The call `file.Close()`. -/
  | closeFile (path : Str)
  /-- The call `reader.Close()`. -/
  | closeReader (name : Str)
  deriving DecidableEq, Repr

/-- The errors `DownloadDirectory` returns. -/
inductive Error where
  /-- Message `failed to list objects`. -/
  | listObjects
  /-- Message `failed to create directory`. -/
  | createDirectory
  /-- Message `failed to create reader for` the object name. -/
  | createReader (name : Str)
  /-- Message `failed to create file` the local path. -/
  | createFile (path : Str)
  /-- Message `failed to copy data to` the local path. -/
  | copyData (path : Str)
  deriving DecidableEq, Repr

/-- The regular files of the local disk: path and content, one entry per path. -/
abbrev Files := List (Str × Bytes)

/-- The content of the file at a path, if there is one. -/
def readFile (files : Files) (path : Str) : Option Bytes :=
  (files.find? (fun e => e.1 = path)).map Prod.snd

/-- The disk after the file at a path received a new content. -/
def writeFile (files : Files) (path : Str) (content : Bytes) : Files :=
  (path, content) :: files.filter (fun e => e.1 ≠ path)

/-- The state the loop of `DownloadDirectory` works on. -/
structure State where
  /-- The local disk. -/
  files : Files
  /-- The calls made so far, oldest first. -/
  trace : List Event
  /-- The variable `downloadedFiles`. -/
  downloadedFiles : List Str
  deriving DecidableEq, Repr

/-- The state after one more call. -/
def State.log (s : State) (e : Event) : State :=
  { s with trace := s.trace ++ [e] }

/-- Lines 41 to 44: the prefix with a trailing separator. -/
def normalizePrefix (gcsPath : Str) : Str :=
  if !HasSuffix gcsPath ['/'] then gcsPath ++ ['/'] else gcsPath

/-- Lines 50 to 93: the loop over the listing.  The list holds the results
`it.Next()` delivers before `iterator.Done`. -/
def downloadLoop (pre localDir : Str) : List Next → State → Option Error × State
  | [], s => (none, s.log .next)
  | .failure :: _, s => (some .listObjects, s.log .next)
  | .object o :: rest, s =>
    let s := s.log .next
    let relativePath := TrimPrefix o.name pre
    if relativePath = [] then downloadLoop pre localDir rest s
    else
      let localPath := Join localDir relativePath
      let s := s.log (.mkdirAll (Dir localPath))
      if !o.mkdirAll then (some .createDirectory, s)
      else
        match o.reader with
        | none => (some (.createReader o.name), s.log (.newReader o.name false))
        | some data =>
          let s := s.log (.newReader o.name true)
          if !o.create then
            (some (.createFile localPath),
              (s.log (.create localPath false)).log (.closeReader o.name))
          else
            let s := { s.log (.create localPath true) with
                       files := writeFile s.files localPath [] }
            match o.copy with
            | some k =>
              let written := data.take k
              let s := { s.log (.copy localPath written.length false) with
                         files := writeFile s.files localPath written }
              (some (.copyData localPath),
                (s.log (.closeFile localPath)).log (.closeReader o.name))
            | none =>
              let s := { s.log (.copy localPath data.length true) with
                         files := writeFile s.files localPath data }
              let s := (s.log (.closeFile localPath)).log (.closeReader o.name)
              downloadLoop pre localDir rest
                { s with downloadedFiles := s.downloadedFiles ++ [localPath] }

/-- Lines 38 to 101: `Downloader.DownloadDirectory`.  `objects` gives, for a
query prefix, the results the listing of the bucket delivers; `files` is the
local disk the call starts on.  The result is the returned error (`none` for
`nil`) and the state the call ends in. -/
def DownloadDirectory (objects : Str → List Next) (gcsPath localDir : Str)
    (files : Files) : Option Error × State :=
  let pre := normalizePrefix gcsPath
  downloadLoop pre localDir (objects pre)
    { files := files, trace := [.query pre], downloadedFiles := [] }

/-- A blob store that lists by name prefix: the listing for a query prefix
delivers, without failure, the stored objects whose name starts with it. -/
def listBucket (bucket : List Listed) (queryPrefix : Str) : List Next :=
  (bucket.filter (fun o => HasPrefix o.name queryPrefix)).map Next.object

/-- A stored object of the given name and content for which every call succeeds. -/
def healthy (name : Str) (data : Bytes) : Listed :=
  { name := name, mkdirAll := true, reader := some data, create := true, copy := none }

/-- The bytes of the remote object. -/
def Listed.data (o : Listed) : Bytes := o.reader.getD []

/-- Whether every call made for the object succeeds. -/
def Listed.ok (o : Listed) : Bool :=
  o.mkdirAll && o.reader.isSome && o.create && o.copy.isNone

/-- Whether the object is the marker of the prefix: its relative path is empty. -/
def isMarker (pre : Str) (o : Listed) : Bool :=
  decide (TrimPrefix o.name pre = [])

/-- Whether the step of the loop for a listing result goes through without a failure. -/
def Next.ok (pre : Str) : Next → Bool
  | .failure => false
  | .object o => isMarker pre o || o.ok

/-- The listed objects the loop transfers when nothing fails: all but the markers. -/
def transferred (pre : Str) : List Next → List Listed
  | [] => []
  | .failure :: rest => transferred pre rest
  | .object o :: rest =>
    if isMarker pre o then transferred pre rest else o :: transferred pre rest

/-- The local path of a listed object: lines 59 and 64. -/
def localPathOf (pre localDir : Str) (o : Listed) : Str :=
  Join localDir (TrimPrefix o.name pre)

/-- The state after the loop body ran without failure for an object that is
not a marker. -/
def afterObject (pre localDir : Str) (o : Listed) (s : State) : State :=
  let localPath := localPathOf pre localDir o
  { files := writeFile (writeFile s.files localPath []) localPath o.data
    trace := s.trace ++ [.next, .mkdirAll (Dir localPath), .newReader o.name true,
      .create localPath true, .copy localPath o.data.length true,
      .closeFile localPath, .closeReader o.name]
    downloadedFiles := s.downloadedFiles ++ [localPath] }

/-- The state after the loop body ran without failure for a listing result. -/
def afterNext (pre localDir : Str) (s : State) : Next → State
  | .failure => s
  | .object o => if isMarker pre o then s.log .next else afterObject pre localDir o s

/-- The state after the loop ran without failure through a listing. -/
def afterAll (pre localDir : Str) (l : List Next) (s : State) : State :=
  l.foldl (afterNext pre localDir) s

/-- The calls the loop body can make for a listed object. -/
def EventOf (pre localDir : Str) (o : Listed) : Event → Prop
  | .mkdirAll dir => dir = Dir (localPathOf pre localDir o)
  | .newReader name _ => name = o.name
  | .create path _ => path = localPathOf pre localDir o
  | .copy path _ _ => path = localPathOf pre localDir o
  | .closeFile path => path = localPathOf pre localDir o
  | .closeReader name => name = o.name
  | .query _ => False
  | .next => False

/-- The read stream and the local file that are open at a point of a trace. -/
structure Handles where
  /-- The object whose read stream is open. -/
  reader : Option Str
  /-- The path of the local file that is open. -/
  file : Option Str
  deriving DecidableEq, Repr

/-- No stream is open. -/
def Handles.idle : Handles := { reader := none, file := none }

/-- The open streams after one more call; `none` once the discipline is
broken: a stream opened while the previous one is still open, a stream closed
that is not open, a copy without both streams open, or the listing advanced
while a stream is open. -/
def scanEvent : Option Handles → Event → Option Handles
  | none, _ => none
  | some h, .query _ => some h
  | some h, .mkdirAll _ => some h
  | some h, .next => if h = Handles.idle then some h else none
  | some h, .newReader name ok =>
    if h.reader = none then (if ok then some { h with reader := some name } else some h)
    else none
  | some h, .create path ok =>
    if h.file = none then (if ok then some { h with file := some path } else some h)
    else none
  | some h, .copy path _ _ =>
    if h.file = some path ∧ h.reader ≠ none then some h else none
  | some h, .closeFile path =>
    if h.file = some path then some { h with file := none } else none
  | some h, .closeReader name =>
    if h.reader = some name then some { h with reader := none } else none

/-- The open streams at the end of a trace that starts with none open. -/
def scanTrace (trace : List Event) : Option Handles :=
  trace.foldl scanEvent (some Handles.idle)

/-- Every stream opened in the trace is closed exactly once, before the
listing advances and before the trace ends. -/
def closedProperly (trace : List Event) : Bool :=
  decide (scanTrace trace = some Handles.idle)

/-- The files the loop writes when nothing fails: local path and content of
each transferred object, in listing order. -/
def entriesOf (pre localDir : Str) (l : List Next) : List (Str × Bytes) :=
  (transferred pre l).map (fun o => (localPathOf pre localDir o, o.data))

/-- Whether a call is another one than `it.Next()`. -/
def notNext : Event → Bool
  | .next => false
  | _ => true

/-- Two states with the same disk, the same transferred paths and the same
calls apart from the calls of `it.Next()`. -/
def Agree (s t : State) : Prop :=
  s.files = t.files ∧ s.downloadedFiles = t.downloadedFiles ∧
    s.trace.filter notNext = t.trace.filter notNext

instance (s t : State) : Decidable (Agree s t) := by
  unfold Agree
  infer_instance

/-! ## `internal/pubsub/subscriber.go` -/

/-- Lines 17 to 19: `Message`, the job: one string field with the JSON key `path`. -/
structure Message where
  /-- The field `Path`. -/
  Path : Str
  deriving DecidableEq, Repr

/-- The value of a member of a JSON object, as far as decoding into
`Message` looks at it. -/
inductive Member where
  /-- The JSON `null`. -/
  | null
  /-- A JSON string. -/
  | string (s : Str)
  /-- A JSON boolean, number, array or object. -/
  | other
  deriving DecidableEq, Repr

/-- The payload `m.Data` as `encoding/json` reads it. -/
inductive Payload where
  /-- Bytes that are not a JSON text. -/
  | invalid
  /-- The JSON text `null`. -/
  | null
  /-- A JSON text whose value is a boolean, a number, a string or an array. -/
  | other
  /-- A JSON object with its members in order. -/
  | object (members : List (Str × Member))
  deriving DecidableEq, Repr

/-- The errors of `json.Unmarshal`. -/
inductive JsonError where
  /-- A `SyntaxError`: the payload is not a JSON text. -/
  | syntaxError
  /-- An `UnmarshalTypeError`: a value that does not fit the Go type. -/
  | typeError
  deriving DecidableEq, Repr

/-- Whether a key of a JSON object selects the field `Path`: the key is `path`
up to the case of its letters. -/
def isPathKey (key : Str) : Bool := decide (key.map Char.toLower = ['p', 'a', 't', 'h'])

/-- The members of a JSON object decoded into a `Message`.  A string under
the key sets `Path`, a `null` leaves it, any other value is a type error that
is reported once the object is read; members under other keys are ignored. -/
def decodeMembers : List (Str × Member) → Message → Except JsonError Message
  | [], msg => .ok msg
  | (key, v) :: rest, msg =>
    if isPathKey key then
      match v with
      | .string s => decodeMembers rest { Path := s }
      | .null => decodeMembers rest msg
      | .other => .error .typeError
    else decodeMembers rest msg

/-- Line 43: `json.Unmarshal(m.Data, &msg)` with `msg` the zero `Message`. -/
def Unmarshal : Payload → Except JsonError Message
  | .invalid => .error .syntaxError
  | .null => .ok { Path := [] }
  | .other => .error .typeError
  | .object members => decodeMembers members { Path := [] }

/-- Whether a JSON object has a member that selects the field `Path`. -/
def hasPathKey (members : List (Str × Member)) : Bool :=
  members.any (fun m => isPathKey m.1)

/-- The payloads that are not a serialization of a job: bytes that are not a
JSON text, a JSON value that is neither an object nor `null`, and an object
with a member under the key `path` whose value is neither a string nor `null`. -/
def rejected : Payload → Bool
  | .invalid => true
  | .null => false
  | .other => true
  | .object members => members.any (fun m => isPathKey m.1 && decide (m.2 = Member.other))

/-- What the callback does with a message, in order. -/
inductive Signal where
  /-- The call `handler(ctx, msg)`. -/
  | handler (msg : Message)
  /-- The call `m.Ack()`. -/
  | ack
  /-- The call `m.Nack()`. -/
  | nack
  deriving DecidableEq, Repr

/-- Lines 41 to 56: the callback `Subscriber.Receive` installs, run on one
message.  The handler returns `none` for `nil` and `some` error otherwise. -/
def receiveCallback {ε : Type} (handler : Message → Option ε) (data : Payload) :
    List Signal :=
  match Unmarshal data with
  | .error _ => [.nack]
  | .ok msg =>
    match handler msg with
    | some _ => [.handler msg, .nack]
    | none => [.handler msg, .ack]

/-! ## `cmd/worker/main.go` -/

/-- The reading of the clock, `time.Now()`, down to the second. -/
structure Time where
  year : Nat
  month : Nat
  day : Nat
  hour : Nat
  minute : Nat
  second : Nat
  deriving DecidableEq, Repr

/-- The decimal digits of a number, padded with zeros to a width, as the
package `time` writes a field. -/
def appendInt (x width : Nat) : Str :=
  List.replicate (width - (Nat.toDigits 10 x).length) '0' ++ Nat.toDigits 10 x

/-- The date part `20060102` of the layout. -/
def formatDate (t : Time) : Str :=
  appendInt t.year 4 ++ appendInt t.month 2 ++ appendInt t.day 2

/-- The clock part `150405` of the layout. -/
def formatClock (t : Time) : Str :=
  appendInt t.hour 2 ++ appendInt t.minute 2 ++ appendInt t.second 2

/-- Line 70: `time.Now().Format("20060102_150405")`. -/
def formatStamp (t : Time) : Str :=
  formatDate t ++ '_' :: formatClock t

/-- Line 70: the destination directory the handler derives for a job. -/
def destination (downloadDir : Str) (msg : Message) (now : Time) : Str :=
  Join downloadDir (Base msg.Path ++ '_' :: formatStamp now)

example : formatStamp ⟨2024, 1, 1, 9, 5, 7⟩ = "20240101_090507".toList := by decide
example : destination "/tmp/downloads".toList ⟨"batch/2024-01-01".toList⟩ ⟨2024, 1, 1, 9, 5, 7⟩
    = "/tmp/downloads/2024-01-01_20240101_090507".toList := by decide
example : Unmarshal (.object []) = .ok ⟨[]⟩ := rfl
example : Unmarshal (.object [("Path".toList, .string "a".toList)]) = .ok ⟨"a".toList⟩ := rfl
example : Unmarshal (.object [("path".toList, .other)]) = .error .typeError := rfl

/-! ## Paths inside a directory -/

/-- One element of a relative path read on its own, as `filepath.Clean`
reads it: the elements kept so far, the most recent first, or `none` once a
`..` element had no earlier element of the relative path to cancel. -/
def relStep : Option (List Str) → Str → Option (List Str)
  | none, _ => none
  | some st, seg =>
    if seg = [] ∨ seg = ['.'] then some st
    else if seg = ['.', '.'] then
      match st with
      | [] => none
      | _ :: rest => some rest
    else some (seg :: st)

/-- The elements that remain of a relative path, the last one first, when the
path never climbs with `..` above its own start; `none` when it does. -/
def relStack (rel : Str) : Option (List Str) :=
  (splitSlash rel).foldl relStep (some [])

/-- The elements that remain of a relative path, in path order. -/
def relParts (rel : Str) : List Str := ((relStack rel).getD []).reverse

/-- Whether a relative path stays below the directory it is joined to: it
never climbs with `..` above its own start and, when the directory is the
empty string, it does not start with the separator. -/
def staysBelow (localDir rel : Str) : Bool :=
  (relStack rel).isSome && (decide (localDir ≠ []) || !isRooted rel)

/-- The elements that lead from a directory down to a path, when the path is
the directory itself or lies below it: both are rooted or both are not, the
cleaned elements of the directory start the cleaned elements of the path, and
what follows does not climb with `..`. -/
def insideParts (dir path : Str) : Option (List Str) :=
  if isRooted dir = isRooted path ∧ (cleanParts dir).isPrefixOf (cleanParts path) = true then
    let rel := (cleanParts path).drop (cleanParts dir).length
    if ['.', '.'] ∈ rel then none else some rel
  else none

/-- Whether a path lies inside a directory: below it, and not the directory itself. -/
def isInside (dir path : Str) : Bool :=
  match insideParts dir path with
  | some rel => decide (rel ≠ [])
  | none => false

/-- The entry of a file in the tree below a directory: its path relative to
the directory and its content, when the file lies inside the directory. -/
def leaf (dir : Str) (e : Str × Bytes) : Option (Str × Bytes) :=
  match insideParts dir e.1 with
  | some rel => if rel = [] then none else some (joinSlash rel, e.2)
  | none => none

/-- The tree of regular files below a directory: the path of each file
relative to the directory, and its content. -/
def tree (dir : Str) (files : Files) : List (Str × Bytes) :=
  files.filterMap (leaf dir)

/-- Whether one of two directories is the other or lies below it: both are
rooted or both are not, and the cleaned elements of one start the cleaned
elements of the other. -/
def nested (d1 d2 : Str) : Bool :=
  decide (isRooted d1 = isRooted d2) &&
    ((cleanParts d1).isPrefixOf (cleanParts d2) || (cleanParts d2).isPrefixOf (cleanParts d1))

/-- The elements `filepath.Clean` has kept so far are well formed: none is
empty, `.` or contains a separator; the `..` elements are the oldest ones, and
there is none when the path is rooted. -/
def StackOk (rooted : Bool) (out : List Str) : Prop :=
  (∀ s ∈ out, s ≠ [] ∧ s ≠ ['.'] ∧ '/' ∉ s) ∧
  out.Chain' (fun a b => a = ['.', '.'] → b = ['.', '.']) ∧
  (rooted = true → ['.', '.'] ∉ out)

/-- A string without underscore and without separator. -/
def Plain (s : Str) : Prop := ∀ c ∈ s, c ≠ '_' ∧ c ≠ '/'

example : isInside "/tmp/dest".toList "/tmp/dest/sub/b.txt".toList = true := by decide
example : isInside "/tmp/dest".toList "/tmp/dest".toList = false := by decide
example : isInside "/tmp/dest".toList "/tmp/evil".toList = false := by decide
example : isInside "/tmp/dest".toList "/tmp/destination/x".toList = false := by decide
example : isInside ".".toList "a/b".toList = true := by decide
example : isInside ".".toList "../a".toList = false := by decide
example : isInside "a".toList "/a/b".toList = false := by decide

/-- A tree after the file at the given elements received a new content. -/
def treeWrite (t : List (Str × Bytes)) (parts : List Str) (content : Bytes) :
    List (Str × Bytes) :=
  if parts = [] then t
  else (joinSlash parts, content) :: t.filter (fun e => e.1 ≠ joinSlash parts)

/-- The tree below the destination directory after the loop body ran without
failure for a listing result. -/
def treeAfterNext (pre : Str) (t : List (Str × Bytes)) : Next → List (Str × Bytes)
  | .failure => t
  | .object o =>
    if isMarker pre o then t
    else treeWrite (treeWrite t (relParts (TrimPrefix o.name pre)) [])
      (relParts (TrimPrefix o.name pre)) o.data

/-- The tree below the destination directory after the loop ran without
failure through a listing. -/
def treeAfterAll (pre : Str) (l : List Next) (t : List (Str × Bytes)) : List (Str × Bytes) :=
  l.foldl (treeAfterNext pre) t

/-- A path that, when it lies inside the directory, is written the way
`filepath.Join` writes it. -/
def CanonPath (dir path : Str) : Prop :=
  ∀ parts, insideParts dir path = some parts → parts ≠ [] →
    path = render (isRooted dir) (cleanParts dir ++ parts)

/-- A disk whose files inside the directory have paths written the way
`filepath.Join` writes them. -/
def Canon (dir : Str) (files : Files) : Prop := ∀ e ∈ files, CanonPath dir e.1

example : relStack "a/../b".toList = some ["b".toList] := by decide
example : relStack "../b".toList = none := by decide
example : relStack "a/b/../../..".toList = none := by decide
example : relParts "sub//./b.txt".toList = ["sub".toList, "b.txt".toList] := by decide
example : nested "/x".toList "/x/sub".toList = true := by decide
example : nested "/x/a".toList "/x/b".toList = false := by decide

/-! # Theorems -/

/-! ## Lemmas on the loop -/

theorem ok_fields (o : Listed) (h : o.ok = true) :
    o.mkdirAll = true ∧ o.reader = some o.data ∧ o.create = true ∧ o.copy = none := by
  unfold Listed.ok at h
  simp only [Bool.and_eq_true] at h
  obtain ⟨⟨⟨h1, h2⟩, h3⟩, h4⟩ := h
  refine ⟨h1, ?_, h3, ?_⟩
  · cases hr : o.reader with
    | none => simp [hr] at h2
    | some d => simp [Listed.data, hr]
  · cases hc : o.copy with
    | none => rfl
    | some k => simp [hc] at h4

theorem downloadLoop_marker (pre localDir : Str) (o : Listed) (rest : List Next) (s : State)
    (hm : isMarker pre o = true) :
    downloadLoop pre localDir (.object o :: rest) s
      = downloadLoop pre localDir rest (s.log .next) := by
  have h : TrimPrefix o.name pre = [] := by simpa [isMarker] using hm
  simp [downloadLoop, h]

theorem downloadLoop_object_ok (pre localDir : Str) (o : Listed) (rest : List Next) (s : State)
    (hm : isMarker pre o = false) (hok : o.ok = true) :
    downloadLoop pre localDir (.object o :: rest) s
      = downloadLoop pre localDir rest (afterObject pre localDir o s) := by
  have h : ¬ TrimPrefix o.name pre = [] := by simpa [isMarker] using hm
  obtain ⟨h1, h2, h3, h4⟩ := ok_fields o hok
  rw [downloadLoop]
  simp only [h, if_false, h1, h2, h3, h4, Bool.not_true, Bool.false_eq_true]
  simp [afterObject, localPathOf, State.log]

theorem downloadLoop_next_ok (pre localDir : Str) (n : Next) (rest : List Next) (s : State)
    (h : n.ok pre = true) :
    downloadLoop pre localDir (n :: rest) s
      = downloadLoop pre localDir rest (afterNext pre localDir s n) := by
  cases n with
  | failure => simp [Next.ok] at h
  | object o =>
    cases hm : isMarker pre o with
    | true => simp [afterNext, hm, downloadLoop_marker pre localDir o rest s hm]
    | false =>
      have hok : o.ok = true := by simpa [Next.ok, hm] using h
      simp [afterNext, hm, downloadLoop_object_ok pre localDir o rest s hm hok]

theorem downloadLoop_append_ok (pre localDir : Str) (before rest : List Next)
    (h : ∀ n ∈ before, n.ok pre = true) (s : State) :
    downloadLoop pre localDir (before ++ rest) s
      = downloadLoop pre localDir rest (afterAll pre localDir before s) := by
  induction before generalizing s with
  | nil => rfl
  | cons n l ih =>
    have hn : n.ok pre = true := h n (List.mem_cons_self _ _)
    have hl : ∀ m ∈ l, m.ok pre = true := fun m hm => h m (List.mem_cons_of_mem _ hm)
    rw [List.cons_append, downloadLoop_next_ok pre localDir n (l ++ rest) s hn, ih hl]
    rfl

theorem downloadLoop_all_ok (pre localDir : Str) (l : List Next)
    (h : ∀ n ∈ l, n.ok pre = true) (s : State) :
    downloadLoop pre localDir l s = (none, (afterAll pre localDir l s).log .next) := by
  have := downloadLoop_append_ok pre localDir l [] h s
  rw [List.append_nil] at this
  rw [this]
  rfl

theorem scanTrace_append (t u : List Event) :
    scanTrace (t ++ u) = u.foldl scanEvent (scanTrace t) := by
  simp [scanTrace, List.foldl_append]

theorem scanTrace_loop (pre localDir : Str) (l : List Next) :
    ∀ s : State, scanTrace s.trace = some Handles.idle →
      scanTrace (downloadLoop pre localDir l s).2.trace = some Handles.idle := by
  induction l with
  | nil =>
    intro s hs
    simp [downloadLoop, State.log, scanTrace_append, hs, scanEvent]
  | cons n rest ih =>
    intro s hs
    cases n with
    | failure => simp [downloadLoop, State.log, scanTrace_append, hs, scanEvent]
    | object o =>
      rw [downloadLoop]
      by_cases hrel : TrimPrefix o.name pre = []
      · simp only [hrel, if_true]
        apply ih
        simp [State.log, scanTrace_append, hs, scanEvent]
      · simp only [hrel, if_false]
        cases hmk : o.mkdirAll
        · simp [State.log, scanTrace_append, hs, scanEvent]
        · cases hr : o.reader with
          | none => simp [State.log, scanTrace_append, hs, scanEvent, Handles.idle]
          | some data =>
            cases hc : o.create
            · simp [State.log, scanTrace_append, hs, scanEvent, Handles.idle]
            · cases hcp : o.copy with
              | some k => simp [State.log, scanTrace_append, hs, scanEvent, Handles.idle]
              | none =>
                simp only [Bool.not_true, Bool.false_eq_true, if_false]
                apply ih
                simp [State.log, scanTrace_append, hs, scanEvent, Handles.idle]

theorem trace_mem (pre localDir : Str) (e : Event) (l : List Next) :
    ∀ s : State, e ∈ (downloadLoop pre localDir l s).2.trace →
      e ∈ s.trace ∨ e = .next ∨
        ∃ o, Next.object o ∈ l ∧ isMarker pre o = false ∧ EventOf pre localDir o e := by
  induction l with
  | nil =>
    intro s h
    simp [downloadLoop, State.log] at h
    tauto
  | cons n rest ih =>
    intro s h
    cases n with
    | failure =>
      simp [downloadLoop, State.log] at h
      tauto
    | object o =>
      rw [downloadLoop] at h
      by_cases hrel : TrimPrefix o.name pre = []
      · simp only [hrel, if_true] at h
        rcases ih _ h with h1 | h1 | ⟨o', ho', hm', he'⟩
        · simp [State.log] at h1
          tauto
        · exact Or.inr (Or.inl h1)
        · exact Or.inr (Or.inr ⟨o', List.mem_cons_of_mem _ ho', hm', he'⟩)
      · have hm : isMarker pre o = false := by simp [isMarker, hrel]
        have key : ∀ e', EventOf pre localDir o e' →
            ∃ o', Next.object o' ∈ Next.object o :: rest ∧ isMarker pre o' = false ∧
              EventOf pre localDir o' e' :=
          fun e' he' => ⟨o, List.mem_cons_self _ _, hm, he'⟩
        simp only [hrel, if_false] at h
        cases hmk : o.mkdirAll
        · simp [hmk, State.log] at h
          rcases h with h | h | h
          · exact Or.inl h
          · exact Or.inr (Or.inl h)
          · exact Or.inr (Or.inr (key e (by subst h; simp [EventOf, localPathOf])))
        · cases hr : o.reader with
          | none =>
            simp [hmk, hr, State.log] at h
            rcases h with h | h | h | h
            · exact Or.inl h
            · exact Or.inr (Or.inl h)
            · exact Or.inr (Or.inr (key e (by subst h; simp [EventOf, localPathOf])))
            · exact Or.inr (Or.inr (key e (by subst h; simp [EventOf])))
          | some data =>
            cases hc : o.create
            · simp [hmk, hr, hc, State.log] at h
              rcases h with h | h | h | h | h | h
              · exact Or.inl h
              · exact Or.inr (Or.inl h)
              all_goals exact Or.inr (Or.inr (key e (by subst h; simp [EventOf, localPathOf])))
            · cases hcp : o.copy with
              | some k =>
                simp [hmk, hr, hc, hcp, State.log] at h
                rcases h with h | h | h | h | h | h | h | h
                · exact Or.inl h
                · exact Or.inr (Or.inl h)
                all_goals exact Or.inr (Or.inr (key e (by subst h; simp [EventOf, localPathOf])))
              | none =>
                simp only [hmk, hr, hc, hcp, Bool.not_true, Bool.false_eq_true, if_false] at h
                rcases ih _ h with h1 | h1 | ⟨o', ho', hm', he'⟩
                · simp [State.log] at h1
                  rcases h1 with h1 | h1 | h1 | h1 | h1 | h1 | h1 | h1
                  · exact Or.inl h1
                  · exact Or.inr (Or.inl h1)
                  all_goals
                    exact Or.inr (Or.inr (key e (by subst h1; simp [EventOf, localPathOf])))
                · exact Or.inr (Or.inl h1)
                · exact Or.inr (Or.inr ⟨o', List.mem_cons_of_mem _ ho', hm', he'⟩)

theorem find_filter_ne (files : Files) (p q : Str) (h : q ≠ p) :
    (files.filter (fun e => e.1 ≠ p)).find? (fun e => e.1 = q)
      = files.find? (fun e => e.1 = q) := by
  induction files with
  | nil => rfl
  | cons e rest ih =>
    by_cases he : e.1 = p
    · have hq : ¬ e.1 = q := fun e' => h (e'.symm.trans he)
      rw [List.filter_cons_of_neg (by simpa using he), List.find?_cons_of_neg _ (by simpa using hq)]
      exact ih
    · rw [List.filter_cons_of_pos (by simpa using he)]
      by_cases hq : e.1 = q
      · rw [List.find?_cons_of_pos _ (by simpa using hq), List.find?_cons_of_pos _ (by simpa using hq)]
      · rw [List.find?_cons_of_neg _ (by simpa using hq), List.find?_cons_of_neg _ (by simpa using hq)]
        exact ih

theorem readFile_writeFile (files : Files) (p q : Str) (b : Bytes) :
    readFile (writeFile files p b) q = if q = p then some b else readFile files q := by
  by_cases h : q = p
  · subst h
    simp [readFile, writeFile]
  · have h' : ¬ p = q := fun e => h e.symm
    simp only [readFile, writeFile, h, if_false]
    rw [List.find?_cons_of_neg _ (by simpa using h'), find_filter_ne files p q h]

/-- A step that fails ends the loop: what the listing holds after it is never looked at. -/
theorem downloadLoop_fail_indep (pre localDir : Str) (n : Next) (rest : List Next) (s : State)
    (h : n.ok pre = false) :
    downloadLoop pre localDir (n :: rest) s = downloadLoop pre localDir [n] s := by
  cases n with
  | failure => simp [downloadLoop]
  | object o =>
    simp only [Next.ok, Bool.or_eq_false_iff] at h
    obtain ⟨hm, hok⟩ := h
    have hrel : ¬ TrimPrefix o.name pre = [] := by simpa [isMarker] using hm
    rw [downloadLoop, downloadLoop]
    simp only [hrel, if_false]
    cases hmk : o.mkdirAll
    · simp
    · cases hr : o.reader with
      | none => simp
      | some data =>
        cases hc : o.create
        · simp
        · cases hcp : o.copy with
          | some k => simp
          | none => simp [Listed.ok, hmk, hr, hc, hcp] at hok

/-- What a failing step does: it returns an error, adds no transferred path,
calls `it.Next()` once, and touches no file other than the one of its object. -/
theorem downloadLoop_fail_facts (pre localDir : Str) (n : Next) (s : State)
    (h : n.ok pre = false) :
    (downloadLoop pre localDir [n] s).1 ≠ none ∧
    (downloadLoop pre localDir [n] s).2.downloadedFiles = s.downloadedFiles ∧
    (∃ evs, (downloadLoop pre localDir [n] s).2.trace = s.trace ++ Event.next :: evs ∧
      Event.next ∉ evs) ∧
    (∀ q, (∀ o, n = .object o → q ≠ localPathOf pre localDir o) →
      readFile (downloadLoop pre localDir [n] s).2.files q = readFile s.files q) ∧
    (∀ q, (readFile s.files q).isSome = true →
      (readFile (downloadLoop pre localDir [n] s).2.files q).isSome = true) := by
  cases n with
  | failure => simp [downloadLoop, State.log]
  | object o =>
    simp only [Next.ok, Bool.or_eq_false_iff] at h
    obtain ⟨hm, hok⟩ := h
    have hrel : ¬ TrimPrefix o.name pre = [] := by simpa [isMarker] using hm
    rw [downloadLoop]
    simp only [hrel, if_false]
    cases hmk : o.mkdirAll
    · simp [State.log]
    · cases hr : o.reader with
      | none => simp [State.log]
      | some data =>
        cases hc : o.create
        · simp [State.log]
        · cases hcp : o.copy with
          | none => simp [Listed.ok, hmk, hr, hc, hcp] at hok
          | some k =>
            refine ⟨by simp, by simp [State.log], ?_, ?_, ?_⟩
            · exact ⟨[.mkdirAll (Dir (Join localDir (TrimPrefix o.name pre))),
                .newReader o.name true, .create (Join localDir (TrimPrefix o.name pre)) true,
                .copy (Join localDir (TrimPrefix o.name pre)) (data.take k).length false,
                .closeFile (Join localDir (TrimPrefix o.name pre)), .closeReader o.name],
                by simp [State.log], by simp⟩
            · intro q hq
              have hq' : q ≠ Join localDir (TrimPrefix o.name pre) := hq o rfl
              simp [State.log, readFile_writeFile, hq']
            · intro q hq
              simp only [Bool.not_true, Bool.false_eq_true, if_false, State.log,
                readFile_writeFile]
              split_ifs <;> simp [hq]

theorem mem_transferred (pre : Str) (o : Listed) (l : List Next) :
    o ∈ transferred pre l ↔ Next.object o ∈ l ∧ isMarker pre o = false := by
  induction l with
  | nil => simp [transferred]
  | cons n rest ih =>
    cases n with
    | failure => simp [transferred, ih]
    | object o' =>
      by_cases hm : isMarker pre o' = true
      · simp only [transferred, hm, if_true, ih, List.mem_cons, Next.object.injEq]
        constructor
        · rintro ⟨h1, h2⟩
          exact ⟨Or.inr h1, h2⟩
        · rintro ⟨h1 | h1, h2⟩
          · subst h1
            simp [hm] at h2
          · exact ⟨h1, h2⟩
      · have hm' : isMarker pre o' = false := by simpa using hm
        simp only [transferred, hm', Bool.false_eq_true, if_false, List.mem_cons, ih,
          Next.object.injEq]
        constructor
        · rintro (h1 | ⟨h1, h2⟩)
          · subst h1
            exact ⟨Or.inl rfl, hm'⟩
          · exact ⟨Or.inr h1, h2⟩
        · rintro ⟨h1 | h1, h2⟩
          · exact Or.inl h1
          · exact Or.inr ⟨h1, h2⟩

theorem afterAll_append (pre localDir : Str) (l m : List Next) (s : State) :
    afterAll pre localDir (l ++ m) s = afterAll pre localDir m (afterAll pre localDir l s) := by
  simp [afterAll, List.foldl_append]

theorem afterAll_cons (pre localDir : Str) (n : Next) (l : List Next) (s : State) :
    afterAll pre localDir (n :: l) s = afterAll pre localDir l (afterNext pre localDir s n) := rfl

theorem afterAll_downloadedFiles (pre localDir : Str) (l : List Next) :
    ∀ s : State, (afterAll pre localDir l s).downloadedFiles
      = s.downloadedFiles ++ (transferred pre l).map (localPathOf pre localDir) := by
  induction l with
  | nil => intro s; simp [afterAll, transferred]
  | cons n rest ih =>
    intro s
    rw [afterAll_cons, ih]
    cases n with
    | failure => simp [afterNext, transferred]
    | object o =>
      cases hm : isMarker pre o <;> simp [afterNext, transferred, hm, State.log, afterObject]

theorem afterAll_readFile_other (pre localDir : Str) (q : Str) (l : List Next) :
    ∀ s : State, (∀ o, Next.object o ∈ l → isMarker pre o = false →
        localPathOf pre localDir o ≠ q) →
      readFile (afterAll pre localDir l s).files q = readFile s.files q := by
  induction l with
  | nil => intro s _; rfl
  | cons n rest ih =>
    intro s h
    rw [afterAll_cons, ih _ (fun o ho hm => h o (List.mem_cons_of_mem _ ho) hm)]
    cases n with
    | failure => rfl
    | object o =>
      cases hm : isMarker pre o
      · have hq : q ≠ localPathOf pre localDir o :=
          fun e => h o (List.mem_cons_self _ _) hm e.symm
        simp [afterNext, hm, afterObject, readFile_writeFile, hq]
      · simp [afterNext, hm, State.log]

theorem afterAll_keeps_files (pre localDir : Str) (q : Str) (l : List Next) :
    ∀ s : State, (readFile s.files q).isSome = true →
      (readFile (afterAll pre localDir l s).files q).isSome = true := by
  induction l with
  | nil => intro s h; exact h
  | cons n rest ih =>
    intro s h
    rw [afterAll_cons]
    apply ih
    cases n with
    | failure => exact h
    | object o =>
      cases hm : isMarker pre o
      · simp only [afterNext, hm, Bool.false_eq_true, if_false, afterObject, readFile_writeFile]
        split_ifs <;> simp [h]
      · simpa [afterNext, hm, State.log] using h

theorem afterAll_count_next (pre localDir : Str) (l : List Next) :
    ∀ s : State, (∀ n ∈ l, n.ok pre = true) →
      (afterAll pre localDir l s).trace.count Event.next
        = s.trace.count Event.next + l.length := by
  induction l with
  | nil => intro s _; rfl
  | cons n rest ih =>
    intro s h
    rw [afterAll_cons, ih _ (fun m hm => h m (List.mem_cons_of_mem _ hm))]
    have hn := h n (List.mem_cons_self _ _)
    cases n with
    | failure => simp [Next.ok] at hn
    | object o =>
      cases hm : isMarker pre o
      · simp [afterNext, hm, afterObject, List.count_cons]
        omega
      · simp [afterNext, hm, State.log]
        omega

theorem filter_of_absent (files : Files) (p : Str) (h : readFile files p = none) :
    files.filter (fun e => e.1 ≠ p) = files := by
  induction files with
  | nil => rfl
  | cons e rest ih =>
    by_cases he : e.1 = p
    · simp [readFile, List.find?_cons, he] at h
    · have h' : readFile rest p = none := by
        simpa [readFile, List.find?_cons, he] using h
      rw [List.filter_cons_of_pos (by simpa using he), ih h']

theorem afterAll_files (pre localDir : Str) (l : List Next) :
    ∀ s : State, ((transferred pre l).map (localPathOf pre localDir)).Nodup →
      (∀ o ∈ transferred pre l, readFile s.files (localPathOf pre localDir o) = none) →
      (afterAll pre localDir l s).files = (entriesOf pre localDir l).reverse ++ s.files := by
  induction l with
  | nil => intro s _ _; simp [afterAll, entriesOf, transferred]
  | cons n rest ih =>
    intro s hnd hfresh
    rw [afterAll_cons]
    cases n with
    | failure => exact ih s hnd hfresh
    | object o =>
      cases hm : isMarker pre o
      · simp only [transferred, hm, Bool.false_eq_true, if_false, List.map_cons,
          List.nodup_cons] at hnd
        have hfo : readFile s.files (localPathOf pre localDir o) = none :=
          hfresh o (by simp [transferred, hm])
        have hfiles : (afterNext pre localDir s (.object o)).files
            = (localPathOf pre localDir o, o.data) :: s.files := by
          simp only [afterNext, hm, Bool.false_eq_true, if_false, afterObject, writeFile]
          rw [List.filter_cons_of_neg (by simp), List.filter_filter]
          simp only [Bool.and_self]
          rw [filter_of_absent s.files _ hfo]
        rw [ih _ hnd.2, hfiles]
        · simp [entriesOf, transferred, hm]
        · intro o' ho'
          rw [hfiles]
          have hne : localPathOf pre localDir o' ≠ localPathOf pre localDir o := by
            intro e
            exact hnd.1 (e ▸ List.mem_map_of_mem _ ho')
          have := hfresh o' (by simp [transferred, hm, ho'])
          simpa [readFile, List.find?_cons, hne.symm] using this
      · have hfiles : (afterNext pre localDir s (.object o)).files = s.files := by
          simp [afterNext, hm, State.log]
        have ht : transferred pre (.object o :: rest) = transferred pre rest := by
          simp [transferred, hm]
        rw [ht] at hnd hfresh
        rw [ih _ hnd (by simpa [hfiles] using hfresh), hfiles]
        simp [entriesOf, ht]

theorem afterNext_agree (pre localDir : Str) (n : Next) (s t : State) (h : Agree s t) :
    Agree (afterNext pre localDir s n) (afterNext pre localDir t n) := by
  obtain ⟨h1, h2, h3⟩ := h
  cases n with
  | failure => exact ⟨h1, h2, h3⟩
  | object o =>
    cases hm : isMarker pre o
    · simp [afterNext, hm, afterObject, Agree, h1, h2, h3, List.filter_append, notNext]
    · simp [afterNext, hm, State.log, Agree, h1, h2, h3, List.filter_append, notNext]

theorem fail_agree (pre localDir : Str) (n : Next) (s t : State) (h : Agree s t)
    (hn : n.ok pre = false) :
    (downloadLoop pre localDir [n] s).1 = (downloadLoop pre localDir [n] t).1 ∧
      Agree (downloadLoop pre localDir [n] s).2 (downloadLoop pre localDir [n] t).2 := by
  obtain ⟨h1, h2, h3⟩ := h
  cases n with
  | failure => simp [downloadLoop, State.log, Agree, h1, h2, h3, List.filter_append, notNext]
  | object o =>
    simp only [Next.ok, Bool.or_eq_false_iff] at hn
    obtain ⟨hm, hok⟩ := hn
    have hrel : ¬ TrimPrefix o.name pre = [] := by simpa [isMarker] using hm
    simp only [downloadLoop, hrel, if_false]
    cases hmk : o.mkdirAll
    · simp [State.log, Agree, h1, h2, h3, List.filter_append, notNext]
    · cases hr : o.reader with
      | none => simp [State.log, Agree, h1, h2, h3, List.filter_append, notNext]
      | some data =>
        cases hc : o.create
        · simp [State.log, Agree, h1, h2, h3, List.filter_append, notNext]
        · cases hcp : o.copy with
          | none => simp [Listed.ok, hmk, hr, hc, hcp] at hok
          | some k => simp [State.log, Agree, h1, h2, h3, List.filter_append, notNext]

theorem loop_agree (pre localDir : Str) (l : List Next) :
    ∀ s t : State, Agree s t →
      (downloadLoop pre localDir l s).1 = (downloadLoop pre localDir l t).1 ∧
        Agree (downloadLoop pre localDir l s).2 (downloadLoop pre localDir l t).2 := by
  induction l with
  | nil =>
    intro s t h
    obtain ⟨h1, h2, h3⟩ := h
    simp [downloadLoop, State.log, Agree, h1, h2, h3, List.filter_append, notNext]
  | cons n rest ih =>
    intro s t h
    cases hn : n.ok pre
    · rw [downloadLoop_fail_indep pre localDir n rest s hn,
        downloadLoop_fail_indep pre localDir n rest t hn]
      exact fail_agree pre localDir n s t h hn
    · rw [downloadLoop_next_ok pre localDir n rest s hn,
        downloadLoop_next_ok pre localDir n rest t hn]
      exact ih _ _ (afterNext_agree pre localDir n s t h)

theorem loop_skip_marker (pre localDir : Str) (m : Listed) (after : List Next)
    (hm : isMarker pre m = true) (before : List Next) :
    ∀ s t : State, Agree s t →
      (downloadLoop pre localDir (before ++ .object m :: after) s).1
          = (downloadLoop pre localDir (before ++ after) t).1 ∧
        Agree (downloadLoop pre localDir (before ++ .object m :: after) s).2
          (downloadLoop pre localDir (before ++ after) t).2 := by
  induction before with
  | nil =>
    intro s t h
    rw [List.nil_append, List.nil_append, downloadLoop_marker pre localDir m after s hm]
    apply loop_agree
    obtain ⟨h1, h2, h3⟩ := h
    simp [State.log, Agree, h1, h2, h3, List.filter_append, notNext]
  | cons n rest ih =>
    intro s t h
    rw [List.cons_append, List.cons_append]
    cases hn : n.ok pre
    · rw [downloadLoop_fail_indep pre localDir n _ s hn,
        downloadLoop_fail_indep pre localDir n _ t hn]
      exact fail_agree pre localDir n s t h hn
    · rw [downloadLoop_next_ok pre localDir n _ s hn,
        downloadLoop_next_ok pre localDir n _ t hn]
      exact ih _ _ (afterNext_agree pre localDir n s t h)

theorem isMarker_of_name (pre : Str) (o : Listed) (h : o.name = pre) :
    isMarker pre o = true := by
  simp [isMarker, TrimPrefix, HasPrefix, h]

theorem normalizePrefix_of_no_slash (p : Str) (hp : HasSuffix p ['/'] = false) :
    normalizePrefix p = p ++ ['/'] := by
  simp [normalizePrefix, hp]

theorem normalizePrefix_of_slash (p : Str) : normalizePrefix (p ++ ['/']) = p ++ ['/'] := by
  have h : HasSuffix (p ++ ['/']) ['/'] = true := by
    simp [HasSuffix, List.isSuffixOf_iff_suffix]
  simp [normalizePrefix, h]

/-! ## The claims on `DownloadDirectory` -/

/-- C10: on every return path of `DownloadDirectory`, successful or failing,
every read stream opened and every local file created is closed exactly once,
within the loop iteration that opened it (before the listing advances) and
before the call returns; in particular the reader is closed when the file
creation fails and both are closed whether the copy succeeded or failed. -/
theorem DownloadDirectory_closes_what_it_opens (objects : Str → List Next)
    (gcsPath localDir : Str) (files : Files) :
    closedProperly (DownloadDirectory objects gcsPath localDir files).2.trace = true := by
  have h := scanTrace_loop (normalizePrefix gcsPath) localDir (objects (normalizePrefix gcsPath))
    { files := files, trace := [.query (normalizePrefix gcsPath)], downloadedFiles := [] }
    (by simp [scanTrace, scanEvent])
  simpa [closedProperly, DownloadDirectory] using h

/-- C6: a listed object whose name is exactly the normalized prefix is
skipped.  The loop only advances the listing for it and goes on with the next
listed object in an otherwise unchanged state: no directory, no read stream,
no local file, no transferred path.  The whole call ends with the same result,
the same disk, the same transferred paths and the same calls (apart from one
call of the listing) as on the listing without that object, and no read stream
is ever opened for that name. -/
theorem DownloadDirectory_skips_prefix_marker (objects : Str → List Next)
    (gcsPath localDir : Str) (files : Files) (before after : List Next) (m : Listed)
    (hm : m.name = normalizePrefix gcsPath)
    (hl : objects (normalizePrefix gcsPath) = before ++ .object m :: after) :
    (∀ (rest : List Next) (s : State),
      downloadLoop (normalizePrefix gcsPath) localDir (.object m :: rest) s
        = downloadLoop (normalizePrefix gcsPath) localDir rest (s.log .next)) ∧
    (DownloadDirectory objects gcsPath localDir files).1
      = (DownloadDirectory (fun _ => before ++ after) gcsPath localDir files).1 ∧
    Agree (DownloadDirectory objects gcsPath localDir files).2
      (DownloadDirectory (fun _ => before ++ after) gcsPath localDir files).2 ∧
    (∀ ok, Event.newReader m.name ok ∉
      (DownloadDirectory objects gcsPath localDir files).2.trace) := by
  have hmk : isMarker (normalizePrefix gcsPath) m = true := isMarker_of_name _ m hm
  refine ⟨fun rest s => downloadLoop_marker _ localDir m rest s hmk, ?_⟩
  have h := loop_skip_marker (normalizePrefix gcsPath) localDir m after hmk before
    { files := files, trace := [.query (normalizePrefix gcsPath)], downloadedFiles := [] }
    { files := files, trace := [.query (normalizePrefix gcsPath)], downloadedFiles := [] }
    ⟨rfl, rfl, rfl⟩
  refine ⟨?_, ?_, ?_⟩
  · simpa [DownloadDirectory, hl] using h.1
  · simpa [DownloadDirectory, hl] using h.2
  · intro ok hmem
    rcases trace_mem (normalizePrefix gcsPath) localDir _ _ _ hmem with h1 | h1 | ⟨o, _, ho, he⟩
    · simp at h1
    · simp at h1
    · have hname : o.name = normalizePrefix gcsPath := by
        simp only [EventOf] at he
        rw [← he, hm]
      rw [isMarker_of_name _ o hname] at ho
      simp at ho

/-- C2: for a prefix that does not end with the separator, the call with the
prefix and the call with the prefix followed by the separator use the same
listing query and end with the same result and the same state (disk, calls,
transferred paths).  With a blob store that lists by name prefix, no read
stream is opened for an object whose name does not start with the prefix
followed by the separator, so such an object is never copied. -/
theorem DownloadDirectory_prefix_normalization (objects : Str → List Next)
    (p localDir : Str) (files : Files) (hp : HasSuffix p ['/'] = false) :
    normalizePrefix p = p ++ ['/'] ∧ normalizePrefix (p ++ ['/']) = p ++ ['/'] ∧
    DownloadDirectory objects p localDir files
      = DownloadDirectory objects (p ++ ['/']) localDir files ∧
    ((∀ q o, Next.object o ∈ objects q → HasPrefix o.name q = true) →
      ∀ name, HasPrefix name (p ++ ['/']) = false →
        ∀ ok, Event.newReader name ok ∉ (DownloadDirectory objects p localDir files).2.trace) := by
  have h1 := normalizePrefix_of_no_slash p hp
  have h2 := normalizePrefix_of_slash p
  refine ⟨h1, h2, by simp [DownloadDirectory, h1, h2], ?_⟩
  intro hlist name hname ok hmem
  rcases trace_mem (normalizePrefix p) localDir _ _ _ hmem with h | h | ⟨o, hol, _, he⟩
  · simp at h
  · simp at h
  · have hpre := hlist _ o hol
    simp only [EventOf] at he
    rw [h1, ← he, hname] at hpre
    simp at hpre

/-- Witness of C2: prefix `foo`, with `foobar/x` and `foo/y` stored. -/
theorem DownloadDirectory_prefix_normalization_witness :
    DownloadDirectory
        (listBucket [healthy "foobar/x".toList [1], healthy "foo/y".toList [2]])
        "foo".toList "/d".toList []
      = DownloadDirectory
        (listBucket [healthy "foobar/x".toList [1], healthy "foo/y".toList [2]])
        "foo/".toList "/d".toList [] ∧
    Event.newReader "foobar/x".toList true ∉
      (DownloadDirectory
        (listBucket [healthy "foobar/x".toList [1], healthy "foo/y".toList [2]])
        "foo".toList "/d".toList []).2.trace :=
  have h := DownloadDirectory_prefix_normalization
    (listBucket [healthy "foobar/x".toList [1], healthy "foo/y".toList [2]])
    "foo".toList "/d".toList [] (by decide)
  ⟨h.2.2.1, h.2.2.2
    (by
      intro q o ho
      simp only [listBucket, List.mem_map, List.mem_filter] at ho
      obtain ⟨o', ⟨_, ho'⟩, hEq⟩ := ho
      cases hEq
      exact ho')
    "foobar/x".toList (by decide) true⟩

/-- Witness of C6: the marker `p/` listed between `p/a` and `p/b`. -/
theorem DownloadDirectory_skips_prefix_marker_witness :
    (DownloadDirectory
        (fun _ => [.object (healthy "p/a".toList [1]), .object (healthy "p/".toList []),
          .object (healthy "p/b".toList [2])])
        "p".toList "/d".toList []).2.files
      = (DownloadDirectory
        (fun _ => [.object (healthy "p/a".toList [1]), .object (healthy "p/b".toList [2])])
        "p".toList "/d".toList []).2.files :=
  (DownloadDirectory_skips_prefix_marker
    (fun _ => [.object (healthy "p/a".toList [1]), .object (healthy "p/".toList []),
      .object (healthy "p/b".toList [2])])
    "p".toList "/d".toList [] [.object (healthy "p/a".toList [1])]
    [.object (healthy "p/b".toList [2])] (healthy "p/".toList []) (by decide) rfl).2.2.1.1

theorem transferred_length (pre : Str) (l : List Next)
    (hok : ∀ n ∈ l, n.ok pre = true)
    (hm : ∀ o, Next.object o ∈ l → isMarker pre o = false) :
    (transferred pre l).length = l.length := by
  induction l with
  | nil => rfl
  | cons n rest ih =>
    have hrest := ih (fun m h => hok m (List.mem_cons_of_mem _ h))
      (fun o h => hm o (List.mem_cons_of_mem _ h))
    cases n with
    | failure =>
      have := hok .failure (List.mem_cons_self _ _)
      simp [Next.ok] at this
    | object o =>
      have := hm o (List.mem_cons_self _ _)
      simp [transferred, this, hrest]

theorem afterAll_has_file (pre localDir : Str) (l : List Next) (s : State) (o : Listed)
    (ho : o ∈ transferred pre l) :
    (readFile (afterAll pre localDir l s).files (localPathOf pre localDir o)).isSome = true := by
  obtain ⟨hmem, hm⟩ := (mem_transferred pre o l).1 ho
  obtain ⟨b1, b2, hsplit⟩ := List.append_of_mem hmem
  rw [hsplit, afterAll_append, afterAll_cons]
  apply afterAll_keeps_files
  simp [afterNext, hm, afterObject, readFile_writeFile]

/-- The state `DownloadDirectory` enters its loop with. -/
theorem DownloadDirectory_eq (objects : Str → List Next) (gcsPath localDir : Str)
    (files : Files) :
    DownloadDirectory objects gcsPath localDir files
      = downloadLoop (normalizePrefix gcsPath) localDir (objects (normalizePrefix gcsPath))
          { files := files, trace := [.query (normalizePrefix gcsPath)],
            downloadedFiles := [] } := rfl

/-- C1 as amended: when no listing, directory-creation, open, create or copy
operation fails, `DownloadDirectory` returns nil and transfers, in listing
order, exactly the listed objects whose name is not the normalized prefix
itself.  When the local paths of these objects are pairwise distinct and free
on the disk the call starts on, the call adds exactly one local file per such
object, at `localDir` joined with the object's name with the normalized prefix
stripped, holding exactly the bytes of the remote object; that is one file per
listed object when no listed object is named exactly the normalized prefix. -/
theorem DownloadDirectory_transfers_listed_objects (objects : Str → List Next)
    (gcsPath localDir : Str) (files : Files)
    (hok : ∀ n ∈ objects (normalizePrefix gcsPath), n.ok (normalizePrefix gcsPath) = true) :
    (DownloadDirectory objects gcsPath localDir files).1 = none ∧
    (DownloadDirectory objects gcsPath localDir files).2.downloadedFiles
      = (transferred (normalizePrefix gcsPath) (objects (normalizePrefix gcsPath))).map
          (localPathOf (normalizePrefix gcsPath) localDir) ∧
    (((transferred (normalizePrefix gcsPath) (objects (normalizePrefix gcsPath))).map
          (localPathOf (normalizePrefix gcsPath) localDir)).Nodup →
      (∀ o ∈ transferred (normalizePrefix gcsPath) (objects (normalizePrefix gcsPath)),
        readFile files (localPathOf (normalizePrefix gcsPath) localDir o) = none) →
      (DownloadDirectory objects gcsPath localDir files).2.files
          = (entriesOf (normalizePrefix gcsPath) localDir
              (objects (normalizePrefix gcsPath))).reverse ++ files ∧
        ((∀ o, Next.object o ∈ objects (normalizePrefix gcsPath) →
            isMarker (normalizePrefix gcsPath) o = false) →
          (DownloadDirectory objects gcsPath localDir files).2.files.length
            = (objects (normalizePrefix gcsPath)).length + files.length)) := by
  rw [DownloadDirectory_eq, downloadLoop_all_ok _ _ _ hok]
  refine ⟨rfl, ?_, ?_⟩
  · simp [State.log, afterAll_downloadedFiles]
  · intro hnd hfresh
    have hfiles := afterAll_files (normalizePrefix gcsPath) localDir
      (objects (normalizePrefix gcsPath))
      { files := files, trace := [.query (normalizePrefix gcsPath)], downloadedFiles := [] }
      hnd hfresh
    refine ⟨by simpa [State.log] using hfiles, ?_⟩
    intro hnm
    simp only [State.log, hfiles, List.length_append, List.length_reverse, entriesOf,
      List.length_map]
    rw [transferred_length _ _ hok hnm]

/-- C5 as amended: when the first failing operation occurs while the k-th
listed object is processed, `DownloadDirectory` returns a non-nil error; the
call is the same as on the listing cut after the k-th result, so it performs
no listing, open or copy for any later object, and the listing has been
advanced exactly k times; nothing is rolled back or deleted: every path that
held a file before the call or received one for an earlier object still holds
a file, and the file of an earlier object holds the full content of that
object provided no object listed after it, up to and including the k-th, has
the same local path. -/
theorem DownloadDirectory_aborts_at_first_failure (objects : Str → List Next)
    (gcsPath localDir : Str) (files : Files) (before after : List Next) (kth : Next)
    (hl : objects (normalizePrefix gcsPath) = before ++ kth :: after)
    (hb : ∀ n ∈ before, n.ok (normalizePrefix gcsPath) = true)
    (hk : kth.ok (normalizePrefix gcsPath) = false) :
    (DownloadDirectory objects gcsPath localDir files).1 ≠ none ∧
    DownloadDirectory objects gcsPath localDir files
      = DownloadDirectory (fun _ => before ++ [kth]) gcsPath localDir files ∧
    (DownloadDirectory objects gcsPath localDir files).2.trace.count Event.next
      = before.length + 1 ∧
    (DownloadDirectory objects gcsPath localDir files).2.downloadedFiles
      = (transferred (normalizePrefix gcsPath) before).map
          (localPathOf (normalizePrefix gcsPath) localDir) ∧
    (∀ q, (readFile files q).isSome = true →
      (readFile (DownloadDirectory objects gcsPath localDir files).2.files q).isSome = true) ∧
    (∀ o ∈ transferred (normalizePrefix gcsPath) before,
      (readFile (DownloadDirectory objects gcsPath localDir files).2.files
        (localPathOf (normalizePrefix gcsPath) localDir o)).isSome = true) ∧
    (∀ b1 o b2, before = b1 ++ .object o :: b2 → isMarker (normalizePrefix gcsPath) o = false →
      (∀ o', Next.object o' ∈ b2 ++ [kth] → isMarker (normalizePrefix gcsPath) o' = false →
        localPathOf (normalizePrefix gcsPath) localDir o'
          ≠ localPathOf (normalizePrefix gcsPath) localDir o) →
      readFile (DownloadDirectory objects gcsPath localDir files).2.files
          (localPathOf (normalizePrefix gcsPath) localDir o) = some o.data) := by
  have hfull : DownloadDirectory objects gcsPath localDir files
      = downloadLoop (normalizePrefix gcsPath) localDir [kth]
          (afterAll (normalizePrefix gcsPath) localDir before
            { files := files, trace := [.query (normalizePrefix gcsPath)],
              downloadedFiles := [] }) := by
    rw [DownloadDirectory_eq, hl, downloadLoop_append_ok _ _ _ _ hb,
      downloadLoop_fail_indep _ _ _ _ _ hk]
  have hcut : DownloadDirectory (fun _ => before ++ [kth]) gcsPath localDir files
      = downloadLoop (normalizePrefix gcsPath) localDir [kth]
          (afterAll (normalizePrefix gcsPath) localDir before
            { files := files, trace := [.query (normalizePrefix gcsPath)],
              downloadedFiles := [] }) := by
    rw [DownloadDirectory_eq, downloadLoop_append_ok _ _ _ _ hb]
  obtain ⟨f1, f2, ⟨evs, f3, f3'⟩, f4, f5⟩ :=
    downloadLoop_fail_facts (normalizePrefix gcsPath) localDir kth
      (afterAll (normalizePrefix gcsPath) localDir before
        { files := files, trace := [.query (normalizePrefix gcsPath)],
          downloadedFiles := [] }) hk
  rw [hcut, hfull]
  refine ⟨f1, rfl, ?_, ?_, ?_, ?_, ?_⟩
  · rw [f3, List.count_append, afterAll_count_next _ _ _ _ hb, List.count_cons_self,
      List.count_eq_zero_of_not_mem f3']
    simp [List.count_cons]
  · rw [f2, afterAll_downloadedFiles]
    rfl
  · intro q hq
    exact f5 q (afterAll_keeps_files _ _ q before _ hq)
  · intro o ho
    exact f5 _ (afterAll_has_file _ _ before _ o ho)
  · intro b1 o b2 hsplit hm hother
    rw [f4]
    · rw [hsplit, afterAll_append, afterAll_cons, afterAll_readFile_other]
      · simp [afterNext, hm, afterObject, readFile_writeFile]
      · intro o' ho' hm'
        exact hother o' (List.mem_append_left _ ho') hm'
    · intro o' hkth
      have hm' : isMarker (normalizePrefix gcsPath) o' = false := by
        subst hkth
        simp only [Next.ok, Bool.or_eq_false_iff] at hk
        exact hk.1
      exact (hother o' (by simp [hkth]) hm').symm

/-- C1 as stated fails: the listing under the prefix `p/` returns three
objects, the marker `p/` itself and `p//a` and `p/a`, which have the same
local path `/d/a`.  No operation fails and the call returns nil, but one
local file exists afterwards where the claim promises three: the marker gives
no file, and the file of `p//a` is overwritten with the bytes of `p/a`. -/
theorem DownloadDirectory_marker_counterexample :
    (∀ n ∈ [Next.object (healthy "p/".toList [7]), .object (healthy "p//a".toList [1]),
        .object (healthy "p/a".toList [2])],
      n.ok (normalizePrefix "p".toList) = true) ∧
    (DownloadDirectory
      (fun _ => [.object (healthy "p/".toList [7]), .object (healthy "p//a".toList [1]),
        .object (healthy "p/a".toList [2])])
      "p".toList "/d".toList []).1 = none ∧
    (DownloadDirectory
      (fun _ => [.object (healthy "p/".toList [7]), .object (healthy "p//a".toList [1]),
        .object (healthy "p/a".toList [2])])
      "p".toList "/d".toList []).2.files = [("/d/a".toList, [2])] ∧
    (DownloadDirectory
      (fun _ => [.object (healthy "p/".toList [7]), .object (healthy "p//a".toList [1]),
        .object (healthy "p/a".toList [2])])
      "p".toList "/d".toList []).2.files.length
      ≠ [Next.object (healthy "p/".toList [7]), .object (healthy "p//a".toList [1]),
        .object (healthy "p/a".toList [2])].length := by
  decide

/-- Witness of C1: the scenario of the specification.  The objects
`batch/2024-01-01/a.txt` of 5 bytes and `batch/2024-01-01/sub/b.txt` of 3
bytes give the local files `/dest/a.txt` of 5 bytes and `/dest/sub/b.txt` of 3
bytes and nothing else. -/
theorem DownloadDirectory_transfers_listed_objects_witness :
    (DownloadDirectory
      (listBucket [healthy "batch/2024-01-01/a.txt".toList [104, 101, 108, 108, 111],
        healthy "batch/2024-01-01/sub/b.txt".toList [97, 98, 99]])
      "batch/2024-01-01".toList "/dest".toList []).1 = none ∧
    (DownloadDirectory
      (listBucket [healthy "batch/2024-01-01/a.txt".toList [104, 101, 108, 108, 111],
        healthy "batch/2024-01-01/sub/b.txt".toList [97, 98, 99]])
      "batch/2024-01-01".toList "/dest".toList []).2.files
      = [("/dest/sub/b.txt".toList, [97, 98, 99]),
         ("/dest/a.txt".toList, [104, 101, 108, 108, 111])] ∧
    (DownloadDirectory
      (listBucket [healthy "batch/2024-01-01/a.txt".toList [104, 101, 108, 108, 111],
        healthy "batch/2024-01-01/sub/b.txt".toList [97, 98, 99]])
      "batch/2024-01-01".toList "/dest".toList []).2.files.length = 2 :=
  have h := DownloadDirectory_transfers_listed_objects
    (listBucket [healthy "batch/2024-01-01/a.txt".toList [104, 101, 108, 108, 111],
      healthy "batch/2024-01-01/sub/b.txt".toList [97, 98, 99]])
    "batch/2024-01-01".toList "/dest".toList [] (by decide)
  ⟨h.1, (h.2.2 (by decide) (by decide)).1.trans (by decide),
    (h.2.2 (by decide) (by decide)).2
      (by
        intro o ho
        have hmem : o ∈ [healthy "batch/2024-01-01/a.txt".toList [104, 101, 108, 108, 111],
            healthy "batch/2024-01-01/sub/b.txt".toList [97, 98, 99]] := by
          simp only [listBucket, List.mem_map, List.mem_filter] at ho
          obtain ⟨o', ⟨hb, _⟩, hEq⟩ := ho
          cases hEq
          exact hb
        simp only [List.mem_cons, List.mem_singleton, List.not_mem_nil, or_false] at hmem
        rcases hmem with e | e <;> subst e <;> decide)⟩

/-- C5 as stated fails: `p//a` and `p/a` have the same local path `/d/a`.
The first is written in full; for the second the file is created, which
truncates it, and the copy fails before a byte is written.  The call returns
an error and the file written for the first object no longer holds its
content. -/
theorem DownloadDirectory_truncation_counterexample :
    Next.ok (normalizePrefix "p".toList) (.object (healthy "p//a".toList [1, 2, 3])) = true ∧
    Next.ok (normalizePrefix "p".toList)
      (.object { healthy "p/a".toList [9, 9] with copy := some 0 }) = false ∧
    localPathOf (normalizePrefix "p".toList) "/d".toList (healthy "p//a".toList [1, 2, 3])
      = "/d/a".toList ∧
    (DownloadDirectory
      (fun _ => [.object (healthy "p//a".toList [1, 2, 3]),
        .object { healthy "p/a".toList [9, 9] with copy := some 0 }])
      "p".toList "/d".toList []).1 = some (Error.copyData "/d/a".toList) ∧
    readFile (DownloadDirectory
      (fun _ => [.object (healthy "p//a".toList [1, 2, 3]),
        .object { healthy "p/a".toList [9, 9] with copy := some 0 }])
      "p".toList "/d".toList []).2.files "/d/a".toList = some [] ∧
    (healthy "p//a".toList [1, 2, 3]).data ≠ [] := by
  decide

/-- Witness of C5: `p/a` is copied, the open of `p/b` fails, `p/c` is never
looked at. -/
theorem DownloadDirectory_aborts_at_first_failure_witness :
    (DownloadDirectory
      (fun _ => [.object (healthy "p/a".toList [1, 2, 3]),
        .object { healthy "p/b".toList [4] with reader := none },
        .object (healthy "p/c".toList [5])])
      "p".toList "/d".toList []).1 ≠ none ∧
    readFile (DownloadDirectory
      (fun _ => [.object (healthy "p/a".toList [1, 2, 3]),
        .object { healthy "p/b".toList [4] with reader := none },
        .object (healthy "p/c".toList [5])])
      "p".toList "/d".toList []).2.files
      (localPathOf (normalizePrefix "p".toList) "/d".toList (healthy "p/a".toList [1, 2, 3]))
      = some [1, 2, 3] :=
  have h := DownloadDirectory_aborts_at_first_failure
    (fun _ => [.object (healthy "p/a".toList [1, 2, 3]),
      .object { healthy "p/b".toList [4] with reader := none },
      .object (healthy "p/c".toList [5])])
    "p".toList "/d".toList [] [.object (healthy "p/a".toList [1, 2, 3])]
    [.object (healthy "p/c".toList [5])]
    (.object { healthy "p/b".toList [4] with reader := none }) rfl (by decide) (by decide)
  ⟨h.1, h.2.2.2.2.2.2 [] (healthy "p/a".toList [1, 2, 3]) [] rfl (by decide)
    (by
      intro o' ho' _
      have ho : o' = { healthy "p/b".toList [4] with reader := none } := by
        simpa using ho'
      subst ho
      decide)⟩

/-! ## The claims on the callback of `Subscriber.Receive` -/

theorem decodeMembers_rejected (members : List (Str × Member)) :
    ∀ msg : Message,
      members.any (fun m => isPathKey m.1 && decide (m.2 = Member.other)) = true →
      decodeMembers members msg = .error .typeError := by
  induction members with
  | nil => intro msg h; exact absurd h (by decide)
  | cons m rest ih =>
    intro msg h
    obtain ⟨key, v⟩ := m
    simp only [List.any_cons, Bool.or_eq_true, Bool.and_eq_true, decide_eq_true_eq] at h
    rcases h with ⟨hk, hv⟩ | hrest
    · subst hv
      simp only [decodeMembers, hk, if_true]
    · by_cases hk : isPathKey key = true
      · cases v with
        | other => simp only [decodeMembers, hk, if_true]
        | null =>
          simp only [decodeMembers, hk, if_true]
          exact ih msg hrest
        | string str =>
          simp only [decodeMembers, hk, if_true]
          exact ih _ hrest
      · simp only [decodeMembers, hk, if_false]
        exact ih msg hrest

theorem decodeMembers_accepted (members : List (Str × Member)) :
    ∀ msg : Message,
      members.any (fun m => isPathKey m.1 && decide (m.2 = Member.other)) = false →
      ∃ out, decodeMembers members msg = .ok out := by
  induction members with
  | nil => intro msg _; exact ⟨msg, rfl⟩
  | cons m rest ih =>
    intro msg h
    obtain ⟨key, v⟩ := m
    simp only [List.any_cons, Bool.or_eq_false_iff] at h
    obtain ⟨hm, hrest⟩ := h
    by_cases hk : isPathKey key = true
    · cases v with
      | other =>
        rw [hk] at hm
        exact Bool.noConfusion hm
      | null =>
        simp only [decodeMembers, hk, if_true]
        exact ih msg hrest
      | string str =>
        simp only [decodeMembers, hk, if_true]
        exact ih _ hrest
    · simp only [decodeMembers, hk, if_false]
      exact ih msg hrest

theorem decodeMembers_no_key (members : List (Str × Member)) :
    ∀ msg : Message, hasPathKey members = false → decodeMembers members msg = .ok msg := by
  induction members with
  | nil => intro msg _; rfl
  | cons m rest ih =>
    intro msg h
    obtain ⟨key, v⟩ := m
    simp only [hasPathKey, List.any_cons, Bool.or_eq_false_iff] at h
    obtain ⟨hk, hrest⟩ := h
    have hk' : ¬ isPathKey key = true := by simp [hk]
    simp only [decodeMembers, hk', if_false]
    exact ih msg hrest

/-- C3 as stated fails: the payload `{}` is valid JSON that lacks the `path`
field; it decodes without error into the job with the empty path, the handler
is invoked with it, and the message is acknowledged. -/
theorem receiveCallback_missing_path_counterexample :
    Unmarshal (.object []) = .ok { Path := [] } ∧
    receiveCallback (fun _ => (none : Option Unit)) (.object [])
      = [.handler { Path := [] }, .ack] :=
  ⟨rfl, rfl⟩

/-- C3 as amended: for every inbound message whose payload `json.Unmarshal`
rejects (it is not valid JSON, its value is neither an object nor `null`, or
it is an object with a member under the key `path`, up to letter case, whose
value is neither a string nor `null`), the callback never invokes the handler
and issues exactly one negative-acknowledge and no acknowledge.  Every other
payload is decoded and handed to the handler; in particular every JSON object
without a member under the key `path` decodes into the job with the empty
path, with which the handler is invoked. -/
theorem receiveCallback_rejects_malformed {ε : Type} (handler : Message → Option ε) :
    (∀ data, rejected data = true →
      (∃ e, Unmarshal data = .error e) ∧
      receiveCallback handler data = [.nack] ∧
      (∀ msg, Signal.handler msg ∉ receiveCallback handler data) ∧
      Signal.ack ∉ receiveCallback handler data) ∧
    (∀ data, rejected data = false →
      ∃ msg, Unmarshal data = .ok msg ∧
        receiveCallback handler data
          = [.handler msg, if (handler msg).isSome then .nack else .ack]) ∧
    (∀ members, hasPathKey members = false →
      Unmarshal (.object members) = .ok { Path := [] } ∧
      receiveCallback handler (.object members)
        = [.handler { Path := [] },
            if (handler { Path := [] }).isSome then .nack else .ack]) := by
  have hcb : ∀ data msg, Unmarshal data = .ok msg →
      receiveCallback handler data
        = [.handler msg, if (handler msg).isSome then .nack else .ack] := by
    intro data msg h
    cases hh : handler msg <;> simp [receiveCallback, h, hh]
  refine ⟨?_, ?_, ?_⟩
  · intro data hrej
    have herr : Unmarshal data = .error (if data = .invalid then .syntaxError else .typeError) := by
      cases data with
      | invalid => rfl
      | null => simp [rejected] at hrej
      | other => rfl
      | object members => simpa [Unmarshal] using decodeMembers_rejected members _ hrej
    have hnack : receiveCallback handler data = [.nack] := by
      simp [receiveCallback, herr]
    rw [hnack]
    exact ⟨⟨_, herr⟩, rfl, by simp, by simp⟩
  · intro data hacc
    cases data with
    | invalid => simp [rejected] at hacc
    | null => exact ⟨_, rfl, hcb _ _ rfl⟩
    | other => simp [rejected] at hacc
    | object members =>
      obtain ⟨msg, hmsg⟩ := decodeMembers_accepted members { Path := [] } hacc
      exact ⟨msg, hmsg, hcb _ _ hmsg⟩
  · intro members hno
    have h := decodeMembers_no_key members { Path := [] } hno
    exact ⟨h, hcb _ _ h⟩

/-- Witness of C3: bytes that are not JSON and the object with `path` set to
a number are rejected; the object with the member `id` only is handled with
the empty path. -/
theorem receiveCallback_rejects_malformed_witness :
    receiveCallback (fun _ => (none : Option Unit)) .invalid = [.nack] ∧
    receiveCallback (fun _ => (none : Option Unit))
      (.object [("path".toList, .other)]) = [.nack] ∧
    receiveCallback (fun _ => (none : Option Unit))
      (.object [("id".toList, .string "7".toList)]) = [.handler { Path := [] }, .ack] :=
  have h := receiveCallback_rejects_malformed (fun _ => (none : Option Unit))
  ⟨(h.1 .invalid rfl).2.1, (h.1 (.object [("path".toList, .other)]) (by decide)).2.1,
    (h.2.2 [("id".toList, .string "7".toList)] (by decide)).2⟩

/-- C4: for every inbound message that deserializes into a job, the callback
invokes the handler exactly once, with that job, and then issues exactly one
signal: a negative-acknowledge if the handler returned an error, an
acknowledge otherwise. -/
theorem receiveCallback_handles_job {ε : Type} (handler : Message → Option ε)
    (data : Payload) (msg : Message) (h : Unmarshal data = .ok msg) :
    receiveCallback handler data
      = [.handler msg, if (handler msg).isSome then .nack else .ack] ∧
    (receiveCallback handler data).count (.handler msg) = 1 ∧
    (Signal.nack ∈ receiveCallback handler data ↔ (handler msg).isSome = true) ∧
    (Signal.ack ∈ receiveCallback handler data ↔ (handler msg).isSome = false) ∧
    (receiveCallback handler data).count .ack + (receiveCallback handler data).count .nack
      = 1 := by
  cases hh : handler msg with
  | none => simp [receiveCallback, h, hh]
  | some err => simp [receiveCallback, h, hh]

/-- Witness of C4: the payload with `path` set to `batch`, and a handler that fails. -/
theorem receiveCallback_handles_job_witness :
    receiveCallback (fun _ => some ()) (.object [("path".toList, .string "batch".toList)])
      = [.handler { Path := "batch".toList }, .nack] :=
  (receiveCallback_handles_job (fun _ => some ())
    (.object [("path".toList, .string "batch".toList)]) { Path := "batch".toList }
    rfl).1

/-! ## Lemmas on paths -/

theorem splitSlash_ne_nil (x : Str) : splitSlash x ≠ [] := by
  cases x with
  | nil => simp [splitSlash]
  | cons c cs =>
    by_cases hc : c = '/'
    · simp [splitSlash, hc]
    · cases h : splitSlash cs <;> simp [splitSlash, hc, h]

theorem splitSlash_append (a b : Str) :
    splitSlash (a ++ '/' :: b) = splitSlash a ++ splitSlash b := by
  induction a with
  | nil => simp [splitSlash]
  | cons c cs ih =>
    by_cases hc : c = '/'
    · simp [splitSlash, hc, ih]
    · cases h : splitSlash cs with
      | nil => exact absurd h (splitSlash_ne_nil cs)
      | cons s ss => simp [splitSlash, hc, ih, h]

theorem splitSlash_of_no_slash (b : Str) (h : '/' ∉ b) : splitSlash b = [b] := by
  induction b with
  | nil => rfl
  | cons c cs ih =>
    have hc : c ≠ '/' := fun e => h (by simp [e])
    have hcs : '/' ∉ cs := fun e => h (List.mem_cons_of_mem _ e)
    simp [splitSlash, hc, ih hcs]

theorem splitSlash_no_slash (x : Str) : ∀ s ∈ splitSlash x, '/' ∉ s := by
  induction x with
  | nil => simp [splitSlash]
  | cons c cs ih =>
    by_cases hc : c = '/'
    · intro s hs
      simp only [splitSlash, hc, if_true, List.mem_cons] at hs
      rcases hs with rfl | hs
      · simp
      · exact ih s hs
    · cases h : splitSlash cs with
      | nil => exact absurd h (splitSlash_ne_nil cs)
      | cons t ts =>
        intro s hs
        simp only [splitSlash, hc, if_false, h, List.mem_cons] at hs
        rw [h] at ih
        rcases hs with rfl | hs
        · intro hmem
          rcases List.mem_cons.1 hmem with e | e
          · exact hc e.symm
          · exact ih t (List.mem_cons_self _ _) e
        · exact ih s (List.mem_cons_of_mem _ hs)

theorem takeWhile_append_stop {α : Type} (p : α → Bool) (l1 l2 : List α) (a : α)
    (h1 : ∀ c ∈ l1, p c = true) (ha : p a = false) :
    (l1 ++ a :: l2).takeWhile p = l1 := by
  induction l1 with
  | nil => simp [List.takeWhile, ha]
  | cons c cs ih =>
    have hc := h1 c (List.mem_cons_self _ _)
    simp [List.takeWhile, hc, ih (fun d hd => h1 d (List.mem_cons_of_mem _ hd))]

theorem takeWhile_all {α : Type} (p : α → Bool) (l : List α) (h : ∀ c ∈ l, p c = true) :
    l.takeWhile p = l := by
  induction l with
  | nil => rfl
  | cons c cs ih =>
    have hc := h c (List.mem_cons_self _ _)
    simp [List.takeWhile, hc, ih (fun d hd => h d (List.mem_cons_of_mem _ hd))]

theorem afterLastSlash_append (x seg : Str) (h : '/' ∉ seg) :
    afterLastSlash (x ++ '/' :: seg) = seg := by
  unfold afterLastSlash
  rw [List.reverse_append, List.reverse_cons, List.append_assoc, List.singleton_append,
    takeWhile_append_stop _ _ _ _ _ (by simp), List.reverse_reverse]
  intro c hc
  have : c ≠ '/' := fun e => h (by simpa [e] using hc)
  simpa using this

theorem afterLastSlash_of_no_slash (seg : Str) (h : '/' ∉ seg) : afterLastSlash seg = seg := by
  unfold afterLastSlash
  rw [takeWhile_all, List.reverse_reverse]
  intro c hc
  have : c ≠ '/' := fun e => h (by simpa [e] using hc)
  simpa using this

theorem afterLastSlash_no_slash (x : Str) : '/' ∉ afterLastSlash x := by
  unfold afterLastSlash
  intro h
  have h' := List.mem_takeWhile_imp (List.mem_reverse.1 h)
  simp at h'

theorem joinSlash_append_singleton (parts : List Str) (seg : Str) :
    joinSlash (parts ++ [seg])
      = if parts = [] then seg else joinSlash parts ++ '/' :: seg := by
  induction parts with
  | nil => simp [joinSlash]
  | cons s rest ih =>
    cases rest with
    | nil => simp [joinSlash]
    | cons t ts =>
      have ih' : joinSlash (t :: (ts ++ [seg])) = joinSlash (t :: ts) ++ '/' :: seg := by
        simpa using ih
      show joinSlash (s :: t :: (ts ++ [seg])) = _
      simp [joinSlash, ih']

theorem afterLastSlash_render (rooted : Bool) (parts : List Str) (seg : Str)
    (h : '/' ∉ seg) : afterLastSlash (render rooted (parts ++ [seg])) = seg := by
  unfold render
  rw [joinSlash_append_singleton]
  by_cases hp : parts = []
  · cases rooted
    · simp [hp, afterLastSlash_of_no_slash seg h]
    · simpa [hp] using afterLastSlash_append [] seg h
  · cases rooted
    · simpa [hp] using afterLastSlash_append (joinSlash parts) seg h
    · simpa [hp] using afterLastSlash_append ('/' :: joinSlash parts) seg h

/-- An element that `filepath.Clean` keeps as it is: not empty, not `.`, not `..`. -/
theorem cleanStep_normal (rooted : Bool) (out : List Str) (seg : Str)
    (h1 : seg ≠ []) (h2 : seg ≠ ['.']) (h3 : seg ≠ ['.', '.']) :
    cleanStep rooted out seg = seg :: out := by
  simp [cleanStep, h1, h2, h3]

theorem cleanStep_empty (rooted : Bool) (out : List Str) : cleanStep rooted out [] = out := by
  simp [cleanStep]

theorem cleanParts_append (a b : Str) (ha : a ≠ []) :
    cleanParts (a ++ '/' :: b)
      = ((splitSlash b).foldl (cleanStep (isRooted a))
          ((splitSlash a).foldl (cleanStep (isRooted a)) [])).reverse := by
  have hr : isRooted (a ++ '/' :: b) = isRooted a := by
    cases a with
    | nil => exact absurd rfl ha
    | cons c cs => rfl
  simp [cleanParts, splitSlash_append, List.foldl_append, hr]

/-- The last element of a joined path: when the second argument is a single
element that `Clean` keeps, possibly after one separator, the joined path ends
with that element. -/
theorem afterLastSlash_Join (a name seg : Str) (hs : '/' ∉ seg)
    (h1 : seg ≠ []) (h2 : seg ≠ ['.']) (h3 : seg ≠ ['.', '.'])
    (hname : name = seg ∨ name = '/' :: seg) :
    afterLastSlash (Join a name) = seg := by
  have hsplit : ∀ r out, (splitSlash name).foldl (cleanStep r) out = seg :: out := by
    intro r out
    rcases hname with e | e
    · rw [e, splitSlash_of_no_slash seg hs]
      simp [cleanStep_normal r out seg h1 h2 h3]
    · rw [e]
      have : splitSlash ('/' :: seg) = [[], seg] := by
        simp [splitSlash, splitSlash_of_no_slash seg hs]
      rw [this]
      simp [cleanStep_empty, cleanStep_normal r out seg h1 h2 h3]
  have hne : name ≠ [] := by
    rcases hname with e | e
    · rw [e]; exact h1
    · rw [e]; simp
  by_cases ha : a = []
  · have : Join a name = render (isRooted name) ([] ++ [seg]) := by
      simp [Join, ha, hne, Clean, cleanParts, hsplit]
    rw [this]
    exact afterLastSlash_render _ _ seg hs
  · have : Join a name = render (isRooted (a ++ '/' :: name))
        (((splitSlash a).foldl (cleanStep (isRooted a)) []).reverse ++ [seg]) := by
      simp [Join, ha, Clean, cleanParts_append a name ha, hsplit]
    rw [this]
    exact afterLastSlash_render _ _ seg hs

/-! ## Lemmas on the time stamp -/

theorem digitChar_plain : ∀ k, k < 10 → Nat.digitChar k ≠ '_' ∧ Nat.digitChar k ≠ '/' := by
  decide

theorem toDigitsCore_plain (fuel : Nat) :
    ∀ (n : Nat) (acc : Str), Plain acc → Plain (Nat.toDigitsCore 10 fuel n acc) := by
  induction fuel with
  | zero => intro n acc h; simpa [Nat.toDigitsCore] using h
  | succ f ih =>
    intro n acc h
    have hd : Plain (Nat.digitChar (n % 10) :: acc) := by
      intro c hc
      rcases List.mem_cons.1 hc with e | e
      · rw [e]; exact digitChar_plain _ (Nat.mod_lt _ (by decide))
      · exact h c e
    simp only [Nat.toDigitsCore]
    split_ifs
    · exact hd
    · exact ih _ _ hd

theorem Plain_append {a b : Str} (ha : Plain a) (hb : Plain b) : Plain (a ++ b) := by
  intro c hc
  rcases List.mem_append.1 hc with h | h
  · exact ha c h
  · exact hb c h

theorem appendInt_plain (x width : Nat) : Plain (appendInt x width) := by
  apply Plain_append
  · intro c hc
    rw [(List.mem_replicate.1 hc).2]
    decide
  · exact toDigitsCore_plain _ _ _ (fun c hc => absurd hc (List.not_mem_nil c))

theorem formatDate_plain (t : Time) : Plain (formatDate t) :=
  Plain_append (Plain_append (appendInt_plain _ _) (appendInt_plain _ _)) (appendInt_plain _ _)

theorem formatClock_plain (t : Time) : Plain (formatClock t) :=
  Plain_append (Plain_append (appendInt_plain _ _) (appendInt_plain _ _)) (appendInt_plain _ _)

theorem appendInt_length (x width : Nat) (h : x < 10 ^ width) (hw : 0 < width) :
    (appendInt x width).length = width := by
  have hlen : (Nat.toDigits 10 x).length ≤ width :=
    Nat.toDigitsCore_length 10 (by decide) (x + 1) x width h hw
  simp only [appendInt, List.length_append, List.length_replicate]
  omega

theorem split_unique {α : Type} (c : α) (xs : List α) :
    ∀ (ys r t : List α), c ∉ xs → c ∉ ys → xs ++ c :: r = ys ++ c :: t → xs = ys ∧ r = t := by
  induction xs with
  | nil =>
    intro ys r t _ hy h
    cases ys with
    | nil => simpa using h
    | cons y ys' =>
      simp only [List.nil_append, List.cons_append, List.cons.injEq] at h
      exact absurd (by simp [h.1]) hy
  | cons x xs' ih =>
    intro ys r t hx hy h
    cases ys with
    | nil =>
      simp only [List.nil_append, List.cons_append, List.cons.injEq] at h
      exact absurd (by simp [h.1]) hx
    | cons y ys' =>
      simp only [List.cons_append, List.cons.injEq] at h
      obtain ⟨e1, e2⟩ := ih ys' r t (fun m => hx (List.mem_cons_of_mem _ m))
        (fun m => hy (List.mem_cons_of_mem _ m)) h.2
      exact ⟨by rw [h.1, e1], e2⟩

/-- A name ending in a time stamp determines the time stamp, whatever stands before. -/
theorem stamp_of_suffix (x1 x2 : Str) (t1 t2 : Time)
    (h : x1 ++ '_' :: formatStamp t1 = x2 ++ '_' :: formatStamp t2) :
    formatStamp t1 = formatStamp t2 := by
  have hrev := congrArg List.reverse h
  simp only [formatStamp, List.reverse_append, List.reverse_cons, List.append_assoc,
    List.singleton_append] at hrev
  have hc1 : '_' ∉ (formatClock t1).reverse :=
    fun m => (formatClock_plain t1 _ (List.mem_reverse.1 m)).1 rfl
  have hc2 : '_' ∉ (formatClock t2).reverse :=
    fun m => (formatClock_plain t2 _ (List.mem_reverse.1 m)).1 rfl
  have hd1 : '_' ∉ (formatDate t1).reverse :=
    fun m => (formatDate_plain t1 _ (List.mem_reverse.1 m)).1 rfl
  have hd2 : '_' ∉ (formatDate t2).reverse :=
    fun m => (formatDate_plain t2 _ (List.mem_reverse.1 m)).1 rfl
  obtain ⟨e1, rest⟩ := split_unique '_' _ _ _ _ hc1 hc2 hrev
  obtain ⟨e2, _⟩ := split_unique '_' _ _ _ _ hd1 hd2 rest
  have e1' := congrArg List.reverse e1
  have e2' := congrArg List.reverse e2
  simp only [List.reverse_reverse] at e1' e2'
  simp [formatStamp, e1', e2']

theorem formatStamp_no_slash (t : Time) : '/' ∉ formatStamp t := by
  intro h
  simp only [formatStamp, List.mem_append, List.mem_cons] at h
  rcases h with h | h | h
  · exact (formatDate_plain t _ h).2 rfl
  · exact absurd h (by decide)
  · exact (formatClock_plain t _ h).2 rfl

theorem Base_shape (path : Str) : Base path = ['/'] ∨ '/' ∉ Base path := by
  unfold Base
  by_cases hp : path = []
  · right
    simp [hp]
  · simp only [hp, if_false]
    split_ifs with hq
    · left; rfl
    · right; exact afterLastSlash_no_slash _

/-- The last element of the destination directory: the base name of the job
path, unless it is the separator, then the underscore and the time stamp. -/
theorem destination_last (downloadDir : Str) (msg : Message) (now : Time) :
    ∃ x, afterLastSlash (destination downloadDir msg now) = x ++ '_' :: formatStamp now := by
  have key : ∀ x : Str, '/' ∉ x →
      (Base msg.Path ++ '_' :: formatStamp now = x ++ '_' :: formatStamp now ∨
        Base msg.Path ++ '_' :: formatStamp now = '/' :: (x ++ '_' :: formatStamp now)) →
      afterLastSlash (destination downloadDir msg now) = x ++ '_' :: formatStamp now := by
    intro x hx hname
    apply afterLastSlash_Join _ _ _ _ _ _ _ hname
    · intro m
      rcases List.mem_append.1 m with m | m
      · exact hx m
      · rcases List.mem_cons.1 m with m | m
        · exact absurd m (by decide)
        · exact formatStamp_no_slash now m
    · simp
    · intro e
      have hm : '_' ∈ x ++ '_' :: formatStamp now := by simp
      rw [e] at hm
      exact absurd hm (by decide)
    · intro e
      have hm : '_' ∈ x ++ '_' :: formatStamp now := by simp
      rw [e] at hm
      exact absurd hm (by decide)
  rcases Base_shape msg.Path with hb | hb
  · exact ⟨[], key [] (by simp) (Or.inr (by simp [hb]))⟩
  · exact ⟨Base msg.Path, key _ hb (Or.inl rfl)⟩

/-! ## The claim on the handler of `main` -/

/-- C8: the handler derives the destination of a job as the download root
joined with the base name of the job path, an underscore and the time stamp;
the time stamp is the date, an underscore and the clock down to the second,
fifteen characters `YYYYMMDD_HHMMSS` for a time of the calendar; and two
invocations under the same download root whose time stamps differ derive
different destinations, whatever the two job paths are. -/
theorem destination_differs_when_stamps_differ (downloadDir : Str) (m1 m2 : Message)
    (t1 t2 : Time) :
    destination downloadDir m1 t1
      = Join downloadDir (Base m1.Path ++ ['_'] ++ formatStamp t1) ∧
    formatStamp t1
      = appendInt t1.year 4 ++ appendInt t1.month 2 ++ appendInt t1.day 2 ++ ['_'] ++
          appendInt t1.hour 2 ++ appendInt t1.minute 2 ++ appendInt t1.second 2 ∧
    (t1.year < 10000 → t1.month < 100 → t1.day < 100 → t1.hour < 100 → t1.minute < 100 →
      t1.second < 100 → (formatStamp t1).length = 15) ∧
    (formatStamp t1 ≠ formatStamp t2 →
      destination downloadDir m1 t1 ≠ destination downloadDir m2 t2) := by
  refine ⟨by simp [destination], by simp [formatStamp, formatDate, formatClock], ?_, ?_⟩
  · intro h1 h2 h3 h4 h5 h6
    simp only [formatStamp, formatDate, formatClock, List.length_append, List.length_cons,
      appendInt_length _ 4 h1 (by decide), appendInt_length _ 2 h2 (by decide),
      appendInt_length _ 2 h3 (by decide), appendInt_length _ 2 h4 (by decide),
      appendInt_length _ 2 h5 (by decide), appendInt_length _ 2 h6 (by decide)]
  · intro hne heq
    obtain ⟨x1, e1⟩ := destination_last downloadDir m1 t1
    obtain ⟨x2, e2⟩ := destination_last downloadDir m2 t2
    rw [heq, e2] at e1
    exact hne (stamp_of_suffix x1 x2 t1 t2 e1.symm)

/-- Witness of C8: the same job path one second apart. -/
theorem destination_differs_when_stamps_differ_witness :
    (formatStamp ⟨2024, 1, 1, 9, 5, 7⟩).length = 15 ∧
    destination "/tmp/downloads".toList { Path := "batch/2024-01-01".toList }
        ⟨2024, 1, 1, 9, 5, 7⟩
      ≠ destination "/tmp/downloads".toList { Path := "batch/2024-01-01".toList }
        ⟨2024, 1, 1, 9, 5, 8⟩ :=
  have h := destination_differs_when_stamps_differ "/tmp/downloads".toList
    { Path := "batch/2024-01-01".toList } { Path := "batch/2024-01-01".toList }
    ⟨2024, 1, 1, 9, 5, 7⟩ ⟨2024, 1, 1, 9, 5, 8⟩
  ⟨h.2.2.1 (by decide) (by decide) (by decide) (by decide) (by decide) (by decide),
    h.2.2.2 (by decide)⟩

/-! ## `filepath.Clean` is idempotent -/

theorem splitSlash_joinSlash (parts : List Str) (hne : parts ≠ [])
    (h : ∀ s ∈ parts, '/' ∉ s) : splitSlash (joinSlash parts) = parts := by
  induction parts with
  | nil => exact absurd rfl hne
  | cons s rest ih =>
    cases rest with
    | nil => simpa [joinSlash] using splitSlash_of_no_slash s (h s (List.mem_cons_self _ _))
    | cons t ts =>
      have ih' := ih (by simp) (fun u hu => h u (List.mem_cons_of_mem _ hu))
      simp only [joinSlash]
      rw [splitSlash_append, ih', splitSlash_of_no_slash s (h s (List.mem_cons_self _ _))]
      rfl

theorem stackOk_nil (rooted : Bool) : StackOk rooted [] := by
  refine ⟨by simp, List.chain'_nil, by simp⟩

theorem stackOk_tail (rooted : Bool) (top : Str) (rest : List Str)
    (h : StackOk rooted (top :: rest)) : StackOk rooted rest :=
  ⟨fun s hs => h.1 s (List.mem_cons_of_mem _ hs), (List.chain'_cons'.1 h.2.1).2,
    fun hr m => h.2.2 hr (List.mem_cons_of_mem _ m)⟩

theorem stackOk_step (rooted : Bool) (out : List Str) (seg : Str)
    (h : StackOk rooted out) (hs : '/' ∉ seg) : StackOk rooted (cleanStep rooted out seg) := by
  unfold cleanStep
  by_cases h1 : seg = [] ∨ seg = ['.']
  · simpa [h1] using h
  · have h1a : seg ≠ [] := fun e => h1 (Or.inl e)
    have h1b : seg ≠ ['.'] := fun e => h1 (Or.inr e)
    simp only [h1, if_false]
    by_cases h2 : seg = ['.', '.']
    · simp only [h2, if_true]
      cases out with
      | nil =>
        cases rooted
        · refine ⟨by simp, by simp, by simp⟩
        · simpa using stackOk_nil true
      | cons top rest =>
        by_cases ht : top = ['.', '.']
        · simp only [ht, if_true]
          have hnr : rooted ≠ true := fun hr => h.2.2 hr (by simp [ht])
          refine ⟨?_, ?_, fun hr => absurd hr hnr⟩
          · intro s hs'
            rcases List.mem_cons.1 hs' with e | e
            · rw [e]; simp
            · have := h.1 s (by simpa [ht] using e)
              exact this
          · rw [ht] at h
            exact List.Chain'.cons (fun _ => rfl) h.2.1
        · simpa [ht] using stackOk_tail rooted top rest h
    · simp only [h2, if_false]
      refine ⟨?_, ?_, ?_⟩
      · intro s hs'
        rcases List.mem_cons.1 hs' with e | e
        · rw [e]; exact ⟨h1a, h1b, hs⟩
        · exact h.1 s e
      · cases out with
        | nil => exact List.chain'_singleton _
        | cons top rest => exact List.Chain'.cons (fun e => absurd e h2) h.2.1
      · intro hr m
        rcases List.mem_cons.1 m with e | e
        · exact h2 e.symm
        · exact h.2.2 hr e

theorem stackOk_foldl (rooted : Bool) (segs : List Str) :
    ∀ out, StackOk rooted out → (∀ s ∈ segs, '/' ∉ s) →
      StackOk rooted (segs.foldl (cleanStep rooted) out) := by
  induction segs with
  | nil => intro out h _; exact h
  | cons seg rest ih =>
    intro out h hs
    exact ih _ (stackOk_step rooted out seg h (hs seg (List.mem_cons_self _ _)))
      (fun s m => hs s (List.mem_cons_of_mem _ m))

/-- Cleaning the elements that `Clean` has kept keeps them all. -/
theorem foldl_cleanStep_kept (rooted : Bool) (out : List Str) (h : StackOk rooted out) :
    out.reverse.foldl (cleanStep rooted) [] = out := by
  induction out with
  | nil => rfl
  | cons top rest ih =>
    rw [List.reverse_cons, List.foldl_append, ih (stackOk_tail rooted top rest h)]
    obtain ⟨ha, hb, _⟩ := h.1 top (List.mem_cons_self _ _)
    simp only [List.foldl_cons, List.foldl_nil, cleanStep, ha, hb, or_self, if_false]
    by_cases h2 : top = ['.', '.']
    · simp only [h2, if_true]
      cases rest with
      | nil =>
        have hnr : rooted ≠ true := fun hr => h.2.2 hr (by simp [h2])
        simp [hnr]
      | cons t ts =>
        have ht : t = ['.', '.'] := (List.chain'_cons.1 h.2.1).1 h2
        simp [ht]
    · simp [h2]

theorem isRooted_joinSlash (parts : List Str)
    (h : ∀ s ∈ parts, s ≠ [] ∧ s ≠ ['.'] ∧ '/' ∉ s) : isRooted (joinSlash parts) = false := by
  cases parts with
  | nil => rfl
  | cons s rest =>
    obtain ⟨ha, _, hc⟩ := h s (List.mem_cons_self _ _)
    cases s with
    | nil => exact absurd rfl ha
    | cons c cs =>
      have hne : c ≠ '/' := fun e => hc (by simp [e])
      cases rest <;> simp [joinSlash, isRooted, hne]

/-- Cleaning a cleaned path gives its elements back. -/
theorem cleanParts_render (rooted : Bool) (parts : List Str)
    (h : StackOk rooted parts.reverse) :
    cleanParts (render rooted parts) = parts ∧ isRooted (render rooted parts) = rooted := by
  have hall : ∀ s ∈ parts, s ≠ [] ∧ s ≠ ['.'] ∧ '/' ∉ s :=
    fun s hs => h.1 s (List.mem_reverse.2 hs)
  have hfold : (parts.foldl (cleanStep rooted) []).reverse = parts := by
    have := foldl_cleanStep_kept rooted parts.reverse h
    rw [List.reverse_reverse] at this
    rw [this, List.reverse_reverse]
  cases rooted with
  | true =>
    refine ⟨?_, rfl⟩
    by_cases hp : parts = []
    · subst hp
      decide
    · have hsplit : splitSlash ('/' :: joinSlash parts) = [] :: parts := by
        simp [splitSlash, splitSlash_joinSlash parts hp (fun s hs => (hall s hs).2.2)]
      simp only [cleanParts, render, if_true, hsplit, isRooted, decide_True, List.foldl_cons,
        cleanStep_empty]
      exact hfold
  | false =>
    by_cases hp : parts = []
    · subst hp
      decide
    · have hr : isRooted (joinSlash parts) = false := isRooted_joinSlash parts hall
      simp only [cleanParts, render, Bool.false_eq_true, if_false, hp, hr,
        splitSlash_joinSlash parts hp (fun s hs => (hall s hs).2.2)]
      exact ⟨hfold, trivial⟩

theorem stackOk_cleanParts (x : Str) : StackOk (isRooted x) (cleanParts x).reverse := by
  unfold cleanParts
  rw [List.reverse_reverse]
  exact stackOk_foldl _ _ _ (stackOk_nil _) (splitSlash_no_slash x)

theorem Clean_of_ne_nil (x : Str) (h : x ≠ []) :
    Clean x = render (isRooted x) (cleanParts x) := by
  simp [Clean, h]

theorem cleanParts_Clean (x : Str) (h : x ≠ []) :
    cleanParts (Clean x) = cleanParts x ∧ isRooted (Clean x) = isRooted x := by
  rw [Clean_of_ne_nil x h]
  exact cleanParts_render _ _ (stackOk_cleanParts x)

/-! ## Joined paths that stay below -/

theorem foldl_relStep_none (segs : List Str) : segs.foldl relStep none = none := by
  induction segs with
  | nil => rfl
  | cons seg rest ih => simpa [relStep] using ih

theorem foldl_cleanStep_rel (rooted : Bool) (segs : List Str) :
    ∀ (st st' out : List Str), (∀ s ∈ st, s ≠ ['.', '.']) →
      segs.foldl relStep (some st) = some st' →
      segs.foldl (cleanStep rooted) (st ++ out) = st' ++ out ∧ ∀ s ∈ st', s ≠ ['.', '.'] := by
  induction segs with
  | nil =>
    intro st st' out hst h
    have : st = st' := by simpa using h
    subst this
    exact ⟨rfl, hst⟩
  | cons seg rest ih =>
    intro st st' out hst h
    rw [List.foldl_cons] at h ⊢
    by_cases h1 : seg = [] ∨ seg = ['.']
    · have e1 : relStep (some st) seg = some st := by simp [relStep, h1]
      have e2 : cleanStep rooted (st ++ out) seg = st ++ out := by simp [cleanStep, h1]
      rw [e1] at h
      rw [e2]
      exact ih st st' out hst h
    · by_cases h2 : seg = ['.', '.']
      · cases st with
        | nil =>
          have e1 : relStep (some []) seg = none := by simp [relStep, h2]
          rw [e1, foldl_relStep_none] at h
          exact absurd h (by simp)
        | cons top tl =>
          have htop : top ≠ ['.', '.'] := hst top (List.mem_cons_self _ _)
          have e1 : relStep (some (top :: tl)) seg = some tl := by simp [relStep, h2]
          have e2 : cleanStep rooted (top :: tl ++ out) seg = tl ++ out := by
            simp [cleanStep, h2, htop]
          rw [e1] at h
          rw [e2]
          exact ih tl st' out (fun s hs => hst s (List.mem_cons_of_mem _ hs)) h
      · have e1 : relStep (some st) seg = some (seg :: st) := by simp [relStep, h1, h2]
        have e2 : cleanStep rooted (st ++ out) seg = (seg :: st) ++ out := by
          simp [cleanStep, h1, h2]
        rw [e1] at h
        rw [e2]
        refine ih (seg :: st) st' out ?_ h
        intro s hs
        rcases List.mem_cons.1 hs with e | e
        · rw [e]; exact h2
        · exact hst s e

/-- The joined path of a directory and a relative path that stays below it. -/
theorem Join_local (d rel : Str) (st : List Str) (h : relStack rel = some st)
    (hroot : d = [] → isRooted rel = false) (hne : rel ≠ []) :
    Join d rel = render (isRooted d) (cleanParts d ++ st.reverse) ∧
    cleanParts (Join d rel) = cleanParts d ++ st.reverse ∧
    isRooted (Join d rel) = isRooted d ∧
    ['.', '.'] ∉ st := by
  by_cases hd : d = []
  · subst hd
    have hr : isRooted rel = false := hroot rfl
    obtain ⟨f1, f2⟩ := foldl_cleanStep_rel (isRooted rel) (splitSlash rel) [] st []
      (by simp) h
    have hparts : cleanParts rel = st.reverse := by
      simp only [List.nil_append, List.append_nil] at f1
      simp [cleanParts, f1]
    have hJ : Join [] rel = Clean rel := by simp [Join, hne]
    obtain ⟨c1, c2⟩ := cleanParts_Clean rel hne
    have hnil : cleanParts [] = [] := by decide
    refine ⟨?_, ?_, ?_, fun m => f2 _ m rfl⟩
    · rw [hJ, Clean_of_ne_nil rel hne, hparts, hr, hnil]
      rfl
    · rw [hJ, c1, hparts, hnil]
      rfl
    · rw [hJ, c2, hr]
      rfl
  · obtain ⟨f1, f2⟩ := foldl_cleanStep_rel (isRooted d) (splitSlash rel) [] st
      ((splitSlash d).foldl (cleanStep (isRooted d)) []) (by simp) h
    have hy : d ++ '/' :: rel ≠ [] := by simp
    have hroot' : isRooted (d ++ '/' :: rel) = isRooted d := by
      cases d with
      | nil => exact absurd rfl hd
      | cons c cs => rfl
    have hparts : cleanParts (d ++ '/' :: rel) = cleanParts d ++ st.reverse := by
      rw [cleanParts_append d rel hd]
      simp only [List.nil_append] at f1
      rw [f1]
      simp [cleanParts]
    have hJ : Join d rel = Clean (d ++ '/' :: rel) := by simp [Join, hd]
    obtain ⟨c1, c2⟩ := cleanParts_Clean (d ++ '/' :: rel) hy
    refine ⟨?_, ?_, ?_, fun m => f2 _ m rfl⟩
    · rw [hJ, Clean_of_ne_nil _ hy, hparts, hroot']
    · rw [hJ, c1, hparts]
    · rw [hJ, c2, hroot']

theorem staysBelow_elim (d rel : Str) (h : staysBelow d rel = true) :
    relStack rel = some (relParts rel).reverse ∧ (d = [] → isRooted rel = false) := by
  simp only [staysBelow, Bool.and_eq_true, Bool.or_eq_true, decide_eq_true_eq,
    Bool.not_eq_true'] at h
  obtain ⟨h1, h2⟩ := h
  constructor
  · cases hr : relStack rel with
    | none => simp [hr] at h1
    | some st => simp [relParts, hr]
  · intro hd
    rcases h2 with h2 | h2
    · exact absurd hd h2
    · exact h2

/-- A relative path that stays below the directory it is joined to gives a
path that is the directory itself or lies below it: the elements that remain
of the relative path lead from the directory to the joined path. -/
theorem insideParts_Join_local (d rel : Str) (h : staysBelow d rel = true) (hne : rel ≠ []) :
    insideParts d (Join d rel) = some (relParts rel) ∧
    Join d rel = render (isRooted d) (cleanParts d ++ relParts rel) := by
  obtain ⟨hst, hroot⟩ := staysBelow_elim d rel h
  obtain ⟨j1, j2, j3, j4⟩ := Join_local d rel _ hst hroot hne
  rw [List.reverse_reverse] at j1 j2
  refine ⟨?_, j1⟩
  have hpre : (cleanParts d).isPrefixOf (cleanParts d ++ relParts rel) = true := by
    rw [List.isPrefixOf_iff_prefix]
    exact List.prefix_append _ _
  have hdd : ['.', '.'] ∉ relParts rel := fun m => j4 (List.mem_reverse.2 m)
  simp [insideParts, j2, j3, hpre, hdd]


theorem rel_ne_nil_of_not_marker (pre : Str) (o : Listed) (hm : isMarker pre o = false) :
    TrimPrefix o.name pre ≠ [] := by
  simpa [isMarker] using hm

/-! ## The claims on local paths -/

/-- C7 as stated fails: the object `p/../evil` listed under the prefix `p/`
is written to `/tmp/evil`, which does not lie inside the destination
`/tmp/dest`.  Two more names leave the inside of the destination: `p/.` is
created at the path of the destination itself, and with the empty string as
destination `p//etc/x` is created at the rooted path `/etc/x`. -/
theorem DownloadDirectory_escape_counterexample :
    (Event.create "/tmp/evil".toList true ∈
      (DownloadDirectory (fun _ => [.object (healthy "p/../evil".toList [1])])
        "p".toList "/tmp/dest".toList []).2.trace ∧
    readFile (DownloadDirectory (fun _ => [.object (healthy "p/../evil".toList [1])])
        "p".toList "/tmp/dest".toList []).2.files "/tmp/evil".toList = some [1] ∧
    isInside "/tmp/dest".toList "/tmp/evil".toList = false) ∧
    (Event.create "/tmp/dest".toList true ∈
      (DownloadDirectory (fun _ => [.object (healthy "p/.".toList [1])])
        "p".toList "/tmp/dest".toList []).2.trace ∧
    isInside "/tmp/dest".toList "/tmp/dest".toList = false) ∧
    (Event.create "/etc/x".toList true ∈
      (DownloadDirectory (fun _ => [.object (healthy "p//etc/x".toList [1])])
        "p".toList [] []).2.trace ∧
    isInside [] "/etc/x".toList = false) := by
  decide

/-- C7 as amended: every local file `DownloadDirectory` creates or truncates
is at the destination joined with the relative part of a listed object whose
name is not the normalized prefix (its name with the normalized prefix
stripped, or its whole name when it does not start with the prefix).  For each
object whose relative part never climbs with `..` above its own start and,
when the destination is the empty string, does not start with the separator,
that path is the destination itself or lies below it, and it lies inside the
destination exactly when cleaning leaves at least one element of the relative
part. -/
theorem DownloadDirectory_creates_inside (objects : Str → List Next)
    (gcsPath localDir : Str) (files : Files) :
    (∀ path ok, Event.create path ok ∈
        (DownloadDirectory objects gcsPath localDir files).2.trace →
      ∃ o, Next.object o ∈ objects (normalizePrefix gcsPath) ∧
        isMarker (normalizePrefix gcsPath) o = false ∧
        path = localPathOf (normalizePrefix gcsPath) localDir o ∧
        (staysBelow localDir (TrimPrefix o.name (normalizePrefix gcsPath)) = true →
          (isInside localDir path = true
            ↔ relParts (TrimPrefix o.name (normalizePrefix gcsPath)) ≠ []))) ∧
    (∀ o, isMarker (normalizePrefix gcsPath) o = false →
      staysBelow localDir (TrimPrefix o.name (normalizePrefix gcsPath)) = true →
      insideParts localDir (localPathOf (normalizePrefix gcsPath) localDir o)
        = some (relParts (TrimPrefix o.name (normalizePrefix gcsPath))) ∧
      (isInside localDir (localPathOf (normalizePrefix gcsPath) localDir o) = true
        ↔ relParts (TrimPrefix o.name (normalizePrefix gcsPath)) ≠ [])) := by
  have per : ∀ o, isMarker (normalizePrefix gcsPath) o = false →
      staysBelow localDir (TrimPrefix o.name (normalizePrefix gcsPath)) = true →
      insideParts localDir (localPathOf (normalizePrefix gcsPath) localDir o)
        = some (relParts (TrimPrefix o.name (normalizePrefix gcsPath))) ∧
      (isInside localDir (localPathOf (normalizePrefix gcsPath) localDir o) = true
        ↔ relParts (TrimPrefix o.name (normalizePrefix gcsPath)) ≠ []) := by
    intro o hm hs
    have h := (insideParts_Join_local localDir _ hs (rel_ne_nil_of_not_marker _ o hm)).1
    refine ⟨h, ?_⟩
    simp [isInside, localPathOf, h]
  refine ⟨?_, per⟩
  intro path ok hmem
  rcases trace_mem (normalizePrefix gcsPath) localDir _ _ _ hmem with h | h | ⟨o, hol, hm, he⟩
  · simp at h
  · simp at h
  · simp only [EventOf] at he
    refine ⟨o, hol, hm, he, ?_⟩
    intro hs
    rw [he]
    exact (per o hm hs).2

/-- Witness of C7: with `p/a`, `p/../evil` and `p/a/../b` listed, the files
of `p/a` and `p/a/../b` lie inside the destination `/tmp/dest`. -/
theorem DownloadDirectory_creates_inside_witness :
    isInside "/tmp/dest".toList
      (localPathOf (normalizePrefix "p".toList) "/tmp/dest".toList
        (healthy "p/a".toList [1])) = true ∧
    isInside "/tmp/dest".toList
      (localPathOf (normalizePrefix "p".toList) "/tmp/dest".toList
        (healthy "p/a/../b".toList [3])) = true :=
  have h := DownloadDirectory_creates_inside
    (fun _ => [.object (healthy "p/a".toList [1]), .object (healthy "p/../evil".toList [2]),
      .object (healthy "p/a/../b".toList [3])])
    "p".toList "/tmp/dest".toList []
  ⟨((h.2 (healthy "p/a".toList [1]) (by decide) (by decide)).2).2 (by decide),
    ((h.2 (healthy "p/a/../b".toList [3]) (by decide) (by decide)).2).2 (by decide)⟩

/-! ## Two destinations -/

theorem all_ok_of_success (pre localDir : Str) (l : List Next) :
    ∀ s : State, (downloadLoop pre localDir l s).1 = none → ∀ n ∈ l, n.ok pre = true := by
  induction l with
  | nil => intro s _ n hn; exact absurd hn (List.not_mem_nil n)
  | cons m rest ih =>
    intro s h n hn
    cases hm : m.ok pre with
    | false =>
      rw [downloadLoop_fail_indep pre localDir m rest s hm] at h
      exact absurd h (downloadLoop_fail_facts pre localDir m s hm).1
    | true =>
      rw [downloadLoop_next_ok pre localDir m rest s hm] at h
      rcases List.mem_cons.1 hn with e | e
      · rw [e]; exact hm
      · exact ih _ h n e


theorem insideParts_some (d x : Str) (parts : List Str) (h : insideParts d x = some parts) :
    isRooted d = isRooted x ∧ cleanParts x = cleanParts d ++ parts ∧ ['.', '.'] ∉ parts := by
  unfold insideParts at h
  split_ifs at h with hc
  have h' : ['.', '.'] ∉ (cleanParts x).drop (cleanParts d).length ∧
      (cleanParts x).drop (cleanParts d).length = parts := by simpa using h
  obtain ⟨hdd, hparts⟩ := h'
  obtain ⟨t, ht⟩ := List.isPrefixOf_iff_prefix.1 hc.2
  have hdrop : (cleanParts x).drop (cleanParts d).length = t := by
    rw [← ht]
    simp
  rw [hdrop] at hparts
  subst hparts
  refine ⟨hc.1, ht.symm, ?_⟩
  rw [← hdrop]
  exact hdd

theorem insideParts_no_slash (d x : Str) (parts : List Str)
    (h : insideParts d x = some parts) : ∀ s ∈ parts, '/' ∉ s := by
  intro s hs
  obtain ⟨_, hx, _⟩ := insideParts_some d x parts h
  have hmem : s ∈ (cleanParts x).reverse := by
    rw [hx]
    simp [hs]
  exact ((stackOk_cleanParts x).1 s hmem).2.2

theorem joinSlash_inj (a b : List Str) (ha : a ≠ []) (hb : b ≠ [])
    (hsa : ∀ s ∈ a, '/' ∉ s) (hsb : ∀ s ∈ b, '/' ∉ s) (h : joinSlash a = joinSlash b) :
    a = b := by
  rw [← splitSlash_joinSlash a ha hsa, ← splitSlash_joinSlash b hb hsb, h]

theorem leaf_of_none (d p : Str) (b : Bytes) (h : insideParts d p = none) :
    leaf d (p, b) = none := by
  simp [leaf, h]

theorem leaf_of_some (d p : Str) (b : Bytes) (parts : List Str)
    (h : insideParts d p = some parts) :
    leaf d (p, b) = if parts = [] then none else some (joinSlash parts, b) := by
  simp [leaf, h]

theorem tree_cons (d : Str) (e : Str × Bytes) (fs : Files) :
    tree d (e :: fs) = (match leaf d e with
      | some x => x :: tree d fs
      | none => tree d fs) := by
  cases h : leaf d e <;> simp [tree, List.filterMap_cons, h]

/-- Removing the files at a path that is not inside the directory leaves its tree. -/
theorem tree_filter_silent (d p : Str) (fs : Files) (h : ∀ b, leaf d (p, b) = none) :
    tree d (fs.filter (fun e => e.1 ≠ p)) = tree d fs := by
  induction fs with
  | nil => rfl
  | cons e rest ih =>
    obtain ⟨q, b⟩ := e
    by_cases hq : q = p
    · rw [List.filter_cons_of_neg (by simpa using hq), ih, tree_cons]
      simp [hq, h b]
    · rw [List.filter_cons_of_pos (by simpa using hq), tree_cons, tree_cons, ih]

/-- Removing the files at a path inside the directory removes its entry from the tree. -/
theorem tree_filter_inside (d p : Str) (parts : List Str) (fs : Files) (hc : Canon d fs)
    (hp : insideParts d p = some parts) (hne : parts ≠ [])
    (hcan : p = render (isRooted d) (cleanParts d ++ parts)) :
    tree d (fs.filter (fun e => e.1 ≠ p))
      = (tree d fs).filter (fun e => e.1 ≠ joinSlash parts) := by
  induction fs with
  | nil => rfl
  | cons e rest ih =>
    obtain ⟨q, b⟩ := e
    have ih' := ih (fun x hx => hc x (List.mem_cons_of_mem _ hx))
    have hcq : CanonPath d q := hc (q, b) (List.mem_cons_self _ _)
    have silent : leaf d (q, b) = none → q ≠ p →
        tree d (((q, b) :: rest).filter (fun e => e.1 ≠ p))
          = (tree d ((q, b) :: rest)).filter (fun e => e.1 ≠ joinSlash parts) := by
      intro hl hqp
      rw [List.filter_cons_of_pos (by simpa using hqp), tree_cons, tree_cons, hl]
      exact ih'
    cases hq : insideParts d q with
    | none =>
      apply silent (leaf_of_none d q b hq)
      intro e
      rw [e, hp] at hq
      exact absurd hq (by simp)
    | some parts' =>
      by_cases hne' : parts' = []
      · apply silent (by simp [leaf_of_some d q b parts' hq, hne'])
        intro e
        rw [e, hp] at hq
        exact hne ((Option.some.inj hq).trans hne')
      · have hl : leaf d (q, b) = some (joinSlash parts', b) := by
          simp [leaf_of_some d q b parts' hq, hne']
        by_cases hpp : parts' = parts
        · have hqp : q = p := by
            rw [hcan, ← hpp]
            exact hcq parts' hq hne'
          rw [List.filter_cons_of_neg (by simpa using hqp), tree_cons, hl, ih']
          simp [hpp]
        · have hqp : q ≠ p := by
            intro e
            rw [e, hp] at hq
            exact hpp (Option.some.inj hq).symm
          have hjoin : joinSlash parts' ≠ joinSlash parts := fun e =>
            hpp (joinSlash_inj parts' parts hne' hne (insideParts_no_slash d q parts' hq)
              (insideParts_no_slash d p parts hp) e)
          rw [List.filter_cons_of_pos (by simpa using hqp), tree_cons, tree_cons, hl, ih']
          simp [hjoin]

theorem tree_writeFile_silent (d p : Str) (b : Bytes) (fs : Files)
    (h : ∀ c, leaf d (p, c) = none) : tree d (writeFile fs p b) = tree d fs := by
  rw [writeFile, tree_cons, h b]
  exact tree_filter_silent d p fs h

theorem tree_writeFile_inside (d p : Str) (b : Bytes) (parts : List Str) (fs : Files)
    (hc : Canon d fs) (hp : insideParts d p = some parts)
    (hcan : p = render (isRooted d) (cleanParts d ++ parts)) :
    tree d (writeFile fs p b) = treeWrite (tree d fs) parts b := by
  by_cases hne : parts = []
  · have hs : ∀ c, leaf d (p, c) = none := fun c => by
      simp [leaf_of_some d p c parts hp, hne]
    rw [tree_writeFile_silent d p b fs hs]
    simp [treeWrite, hne]
  · rw [writeFile, tree_cons, leaf_of_some d p b parts hp]
    simp only [hne, if_false, treeWrite]
    rw [tree_filter_inside d p parts fs hc hp hne hcan]

theorem canon_writeFile (d p : Str) (b : Bytes) (fs : Files) (hc : Canon d fs)
    (hp : CanonPath d p) : Canon d (writeFile fs p b) := by
  intro e he
  rcases List.mem_cons.1 he with h | h
  · rw [h]; exact hp
  · exact hc e (List.mem_filter.1 h).1

theorem canon_of_tree_nil (d : Str) (fs : Files) (h : tree d fs = []) : Canon d fs := by
  induction fs with
  | nil => intro e he; exact absurd he (List.not_mem_nil e)
  | cons e rest ih =>
    rw [tree_cons] at h
    cases hl : leaf d e with
    | some x => simp [hl] at h
    | none =>
      rw [hl] at h
      intro x hx
      rcases List.mem_cons.1 hx with e1 | e1
      · subst e1
        intro parts hp hne
        obtain ⟨q, b⟩ := x
        rw [leaf_of_some d q b parts hp] at hl
        simp [hne] at hl
      · exact ih h x e1

theorem canonPath_Join_local (d rel : Str) (h : staysBelow d rel = true) (hne : rel ≠ []) :
    CanonPath d (Join d rel) := by
  obtain ⟨h1, h2⟩ := insideParts_Join_local d rel h hne
  intro parts hp _
  rw [h1] at hp
  rw [← Option.some.inj hp]
  exact h2

/-- A call into its own destination changes the tree below it file by file. -/
theorem tree_afterAll_own (pre d : Str) (l : List Next) :
    ∀ s : State,
      (∀ o, Next.object o ∈ l → isMarker pre o = false →
        staysBelow d (TrimPrefix o.name pre) = true) →
      Canon d s.files →
      tree d (afterAll pre d l s).files = treeAfterAll pre l (tree d s.files) ∧
        Canon d (afterAll pre d l s).files := by
  induction l with
  | nil => intro s _ hc; exact ⟨rfl, hc⟩
  | cons n rest ih =>
    intro s hl hc
    have hrest : ∀ o, Next.object o ∈ rest → isMarker pre o = false →
        staysBelow d (TrimPrefix o.name pre) = true :=
      fun o ho hm => hl o (List.mem_cons_of_mem _ ho) hm
    rw [afterAll_cons]
    show tree d _ = treeAfterAll pre rest (treeAfterNext pre (tree d s.files) n) ∧ _
    cases n with
    | failure => exact ih s hrest hc
    | object o =>
      cases hm : isMarker pre o with
      | true =>
        have hfiles : (afterNext pre d s (.object o)).files = s.files := by
          simp [afterNext, hm, State.log]
        have := ih (afterNext pre d s (.object o)) hrest (by rw [hfiles]; exact hc)
        rw [hfiles] at this
        simpa [treeAfterNext, hm] using this
      | false =>
        have hs := hl o (List.mem_cons_self _ _) hm
        have hne := rel_ne_nil_of_not_marker pre o hm
        obtain ⟨h1, h2⟩ := insideParts_Join_local d _ hs hne
        have hcp := canonPath_Join_local d _ hs hne
        have hfiles : (afterNext pre d s (.object o)).files
            = writeFile (writeFile s.files (Join d (TrimPrefix o.name pre)) [])
                (Join d (TrimPrefix o.name pre)) o.data := by
          simp [afterNext, hm, afterObject, localPathOf]
        have hc1 := canon_writeFile d _ [] s.files hc hcp
        have hc2 := canon_writeFile d _ o.data _ hc1 hcp
        have ht : tree d (afterNext pre d s (.object o)).files
            = treeAfterNext pre (tree d s.files) (.object o) := by
          rw [hfiles, tree_writeFile_inside d _ o.data _ _ hc1 h1 h2,
            tree_writeFile_inside d _ [] _ _ hc h1 h2]
          simp [treeAfterNext, hm]
        have := ih (afterNext pre d s (.object o)) hrest (by rw [hfiles]; exact hc2)
        rw [ht] at this
        exact this

/-- A call into another destination that writes nothing inside a directory
leaves the tree below that directory. -/
theorem tree_afterAll_other (pre d d' : Str) (l : List Next) :
    ∀ s : State,
      (∀ o, Next.object o ∈ l → isMarker pre o = false →
        insideParts d (localPathOf pre d' o) = none) →
      Canon d s.files →
      tree d (afterAll pre d' l s).files = tree d s.files ∧
        Canon d (afterAll pre d' l s).files := by
  induction l with
  | nil => intro s _ hc; exact ⟨rfl, hc⟩
  | cons n rest ih =>
    intro s hl hc
    have hrest : ∀ o, Next.object o ∈ rest → isMarker pre o = false →
        insideParts d (localPathOf pre d' o) = none :=
      fun o ho hm => hl o (List.mem_cons_of_mem _ ho) hm
    rw [afterAll_cons]
    cases n with
    | failure => exact ih s hrest hc
    | object o =>
      cases hm : isMarker pre o with
      | true =>
        have hfiles : (afterNext pre d' s (.object o)).files = s.files := by
          simp [afterNext, hm, State.log]
        have := ih (afterNext pre d' s (.object o)) hrest (by rw [hfiles]; exact hc)
        rw [hfiles] at this
        exact this
      | false =>
        have hout := hl o (List.mem_cons_self _ _) hm
        have hsil : ∀ c, leaf d (localPathOf pre d' o, c) = none :=
          fun c => leaf_of_none d _ c hout
        have hcp : CanonPath d (localPathOf pre d' o) := by
          intro parts hp _
          rw [hout] at hp
          exact absurd hp (by simp)
        have hfiles : (afterNext pre d' s (.object o)).files
            = writeFile (writeFile s.files (localPathOf pre d' o) [])
                (localPathOf pre d' o) o.data := by
          simp [afterNext, hm, afterObject]
        have hc1 := canon_writeFile d _ [] s.files hc hcp
        have hc2 := canon_writeFile d _ o.data _ hc1 hcp
        have ht : tree d (afterNext pre d' s (.object o)).files = tree d s.files := by
          rw [hfiles, tree_writeFile_silent d _ o.data _ hsil,
            tree_writeFile_silent d _ [] _ hsil]
        have := ih (afterNext pre d' s (.object o)) hrest (by rw [hfiles]; exact hc2)
        rw [ht] at this
        exact this

/-- A path joined to one of two directories that are not nested is not inside the other. -/
theorem insideParts_other (d d' rel : Str)
    (hn : isRooted d = isRooted d' →
      ¬ cleanParts d <+: cleanParts d' ∧ ¬ cleanParts d' <+: cleanParts d)
    (hs : staysBelow d' rel = true) (hne : rel ≠ []) :
    insideParts d (Join d' rel) = none := by
  obtain ⟨hst, hroot⟩ := staysBelow_elim d' rel hs
  obtain ⟨_, j2, j3, _⟩ := Join_local d' rel _ hst hroot hne
  unfold insideParts
  rw [if_neg]
  rintro ⟨hr, hpre⟩
  rw [j3] at hr
  rw [j2, List.isPrefixOf_iff_prefix] at hpre
  obtain ⟨n1, n2⟩ := hn hr
  rcases List.prefix_or_prefix_of_prefix hpre (List.prefix_append _ _) with h | h
  · exact n1 h
  · exact n2 h

theorem nested_elim (d1 d2 : Str) (h : nested d1 d2 = false) :
    isRooted d1 = isRooted d2 →
      ¬ cleanParts d1 <+: cleanParts d2 ∧ ¬ cleanParts d2 <+: cleanParts d1 := by
  intro hr
  simp only [nested, hr, decide_True, Bool.true_and, Bool.or_eq_false_iff] at h
  constructor
  · intro hp
    have := List.isPrefixOf_iff_prefix.2 hp
    rw [h.1] at this
    exact Bool.noConfusion this
  · intro hp
    have := List.isPrefixOf_iff_prefix.2 hp
    rw [h.2] at this
    exact Bool.noConfusion this

theorem files_of_success (objects : Str → List Next) (gcsPath d : Str) (files : Files)
    (h : (DownloadDirectory objects gcsPath d files).1 = none) :
    (DownloadDirectory objects gcsPath d files).2.files
      = (afterAll (normalizePrefix gcsPath) d (objects (normalizePrefix gcsPath))
          { files := files, trace := [.query (normalizePrefix gcsPath)],
            downloadedFiles := [] }).files := by
  have hok := all_ok_of_success _ _ _ _ h
  rw [DownloadDirectory_eq, downloadLoop_all_ok _ _ _ hok]
  rfl

/-- C9 as stated fails: for the object `p/../b/f`, the call into `/x/a` and
the call into `/x/b` both write `/x/b/f`; the tree below `/x/a` is empty and
the tree below `/x/b` holds the file `f`.  With the empty string as one
destination, the object `p//f` is written to the rooted path `/f`, outside
that destination, and to `/x/f` inside the other.  With the destination
`/x/sub` inside the destination `/x`, both empty at the start, the call into
`/x` followed by the call into `/x/sub` leaves `f` and `sub/f` below `/x` and
only `f` below `/x/sub`. -/
theorem DownloadDirectory_trees_counterexample :
    ((DownloadDirectory (fun _ => [.object (healthy "p/../b/f".toList [1])])
      "p".toList "/x/a".toList []).1 = none ∧
    (DownloadDirectory (fun _ => [.object (healthy "p/../b/f".toList [1])])
      "p".toList "/x/b".toList []).1 = none ∧
    tree "/x/a".toList (DownloadDirectory (fun _ => [.object (healthy "p/../b/f".toList [1])])
      "p".toList "/x/a".toList []).2.files = [] ∧
    tree "/x/b".toList (DownloadDirectory (fun _ => [.object (healthy "p/../b/f".toList [1])])
      "p".toList "/x/b".toList []).2.files = [("f".toList, [1])]) ∧
    ((DownloadDirectory (fun _ => [.object (healthy "p//f".toList [1])])
      "p".toList [] []).2.files = [("/f".toList, [1])] ∧
    tree [] (DownloadDirectory (fun _ => [.object (healthy "p//f".toList [1])])
      "p".toList [] []).2.files = [] ∧
    tree "/x".toList (DownloadDirectory (fun _ => [.object (healthy "p//f".toList [1])])
      "p".toList "/x".toList []).2.files = [("f".toList, [1])]) ∧
    ((DownloadDirectory (fun _ => [.object (healthy "p/f".toList [1])])
      "p".toList "/x".toList []).1 = none ∧
    (DownloadDirectory (fun _ => [.object (healthy "p/f".toList [1])])
      "p".toList "/x/sub".toList
      (DownloadDirectory (fun _ => [.object (healthy "p/f".toList [1])])
        "p".toList "/x".toList []).2.files).1 = none ∧
    tree "/x".toList (DownloadDirectory (fun _ => [.object (healthy "p/f".toList [1])])
      "p".toList "/x/sub".toList
      (DownloadDirectory (fun _ => [.object (healthy "p/f".toList [1])])
        "p".toList "/x".toList []).2.files).2.files
      = [("sub/f".toList, [1]), ("f".toList, [1])] ∧
    tree "/x/sub".toList (DownloadDirectory (fun _ => [.object (healthy "p/f".toList [1])])
      "p".toList "/x/sub".toList
      (DownloadDirectory (fun _ => [.object (healthy "p/f".toList [1])])
        "p".toList "/x".toList []).2.files).2.files
      = [("f".toList, [1])]) := by
  decide

/-- C9 as amended: take a bucket content and prefix in which the relative
part of every listed object never climbs with `..` above its own start (and
does not start with the separator when a destination is the empty string),
and two destination directories below which the disk holds no file at the
start.  A successful call into the first and a successful call into the
second, each run on that disk, produce identical trees: the same relative
file paths with byte-identical content.  When neither destination is the
other or lies below the other, a successful call into the first followed, on
the disk it leaves, by a successful call into the second leaves identical
trees below the two destinations. -/
theorem DownloadDirectory_same_tree (objects : Str → List Next) (gcsPath d1 d2 : Str)
    (files : Files)
    (hlocal : ∀ o, Next.object o ∈ objects (normalizePrefix gcsPath) →
      isMarker (normalizePrefix gcsPath) o = false →
      staysBelow d1 (TrimPrefix o.name (normalizePrefix gcsPath)) = true ∧
        staysBelow d2 (TrimPrefix o.name (normalizePrefix gcsPath)) = true)
    (he1 : tree d1 files = []) (he2 : tree d2 files = [])
    (h1 : (DownloadDirectory objects gcsPath d1 files).1 = none) :
    ((DownloadDirectory objects gcsPath d2 files).1 = none →
      tree d1 (DownloadDirectory objects gcsPath d1 files).2.files
        = tree d2 (DownloadDirectory objects gcsPath d2 files).2.files) ∧
    (nested d1 d2 = false →
      (DownloadDirectory objects gcsPath d2
        (DownloadDirectory objects gcsPath d1 files).2.files).1 = none →
      tree d1 (DownloadDirectory objects gcsPath d2
          (DownloadDirectory objects gcsPath d1 files).2.files).2.files
        = tree d2 (DownloadDirectory objects gcsPath d2
          (DownloadDirectory objects gcsPath d1 files).2.files).2.files) := by
  have hl1 : ∀ o, Next.object o ∈ objects (normalizePrefix gcsPath) →
      isMarker (normalizePrefix gcsPath) o = false →
      staysBelow d1 (TrimPrefix o.name (normalizePrefix gcsPath)) = true :=
    fun o ho hm => (hlocal o ho hm).1
  have hl2 : ∀ o, Next.object o ∈ objects (normalizePrefix gcsPath) →
      isMarker (normalizePrefix gcsPath) o = false →
      staysBelow d2 (TrimPrefix o.name (normalizePrefix gcsPath)) = true :=
    fun o ho hm => (hlocal o ho hm).2
  have hc1 := canon_of_tree_nil d1 files he1
  have hc2 := canon_of_tree_nil d2 files he2
  have own1 := tree_afterAll_own (normalizePrefix gcsPath) d1
    (objects (normalizePrefix gcsPath))
    { files := files, trace := [.query (normalizePrefix gcsPath)], downloadedFiles := [] }
    hl1 hc1
  constructor
  · intro h2
    have own2 := tree_afterAll_own (normalizePrefix gcsPath) d2
      (objects (normalizePrefix gcsPath))
      { files := files, trace := [.query (normalizePrefix gcsPath)], downloadedFiles := [] }
      hl2 hc2
    rw [files_of_success _ _ _ _ h1, files_of_success _ _ _ _ h2, own1.1, own2.1]
    show treeAfterAll _ _ (tree d1 files) = treeAfterAll _ _ (tree d2 files)
    rw [he1, he2]
  · intro hn h2
    have hn12 := nested_elim d1 d2 hn
    have hn21 : isRooted d2 = isRooted d1 →
        ¬ cleanParts d2 <+: cleanParts d1 ∧ ¬ cleanParts d1 <+: cleanParts d2 :=
      fun hr => (hn12 hr.symm).symm
    have out2 : ∀ o, Next.object o ∈ objects (normalizePrefix gcsPath) →
        isMarker (normalizePrefix gcsPath) o = false →
        insideParts d2 (localPathOf (normalizePrefix gcsPath) d1 o) = none :=
      fun o ho hm => insideParts_other d2 d1 _ hn21 (hl1 o ho hm)
        (rel_ne_nil_of_not_marker _ o hm)
    have out1 : ∀ o, Next.object o ∈ objects (normalizePrefix gcsPath) →
        isMarker (normalizePrefix gcsPath) o = false →
        insideParts d1 (localPathOf (normalizePrefix gcsPath) d2 o) = none :=
      fun o ho hm => insideParts_other d1 d2 _ hn12 (hl2 o ho hm)
        (rel_ne_nil_of_not_marker _ o hm)
    have oth2 := tree_afterAll_other (normalizePrefix gcsPath) d2 d1
      (objects (normalizePrefix gcsPath))
      { files := files, trace := [.query (normalizePrefix gcsPath)], downloadedFiles := [] }
      out2 hc2
    have hdisk := files_of_success _ _ _ _ h1
    have oth1 := tree_afterAll_other (normalizePrefix gcsPath) d1 d2
      (objects (normalizePrefix gcsPath))
      { files := (DownloadDirectory objects gcsPath d1 files).2.files,
        trace := [.query (normalizePrefix gcsPath)], downloadedFiles := [] }
      out1 (by rw [hdisk]; exact own1.2)
    have own2 := tree_afterAll_own (normalizePrefix gcsPath) d2
      (objects (normalizePrefix gcsPath))
      { files := (DownloadDirectory objects gcsPath d1 files).2.files,
        trace := [.query (normalizePrefix gcsPath)], downloadedFiles := [] }
      hl2 (by rw [hdisk]; exact oth2.2)
    rw [files_of_success _ _ _ _ h2, oth1.1, own2.1]
    show tree d1 (DownloadDirectory objects gcsPath d1 files).2.files
      = treeAfterAll _ _ (tree d2 (DownloadDirectory objects gcsPath d1 files).2.files)
    rw [hdisk, own1.1, oth2.1]
    show treeAfterAll _ _ (tree d1 files) = treeAfterAll _ _ (tree d2 files)
    rw [he1, he2]

/-- Witness of C9: the scenario of the specification into `/d1` and then,
on the disk that call leaves, into `/d2`. -/
theorem DownloadDirectory_same_tree_witness :
    tree "/d1".toList (DownloadDirectory
        (fun _ => [.object (healthy "batch/2024-01-01/a.txt".toList [104, 101, 108, 108, 111]),
          .object (healthy "batch/2024-01-01/sub/b.txt".toList [97, 98, 99])])
        "batch/2024-01-01".toList "/d1".toList []).2.files
      = tree "/d2".toList (DownloadDirectory
        (fun _ => [.object (healthy "batch/2024-01-01/a.txt".toList [104, 101, 108, 108, 111]),
          .object (healthy "batch/2024-01-01/sub/b.txt".toList [97, 98, 99])])
        "batch/2024-01-01".toList "/d2".toList []).2.files ∧
    tree "/d1".toList (DownloadDirectory
        (fun _ => [.object (healthy "batch/2024-01-01/a.txt".toList [104, 101, 108, 108, 111]),
          .object (healthy "batch/2024-01-01/sub/b.txt".toList [97, 98, 99])])
        "batch/2024-01-01".toList "/d2".toList
        (DownloadDirectory
          (fun _ => [.object (healthy "batch/2024-01-01/a.txt".toList [104, 101, 108, 108, 111]),
            .object (healthy "batch/2024-01-01/sub/b.txt".toList [97, 98, 99])])
          "batch/2024-01-01".toList "/d1".toList []).2.files).2.files
      = tree "/d2".toList (DownloadDirectory
        (fun _ => [.object (healthy "batch/2024-01-01/a.txt".toList [104, 101, 108, 108, 111]),
          .object (healthy "batch/2024-01-01/sub/b.txt".toList [97, 98, 99])])
        "batch/2024-01-01".toList "/d2".toList
        (DownloadDirectory
          (fun _ => [.object (healthy "batch/2024-01-01/a.txt".toList [104, 101, 108, 108, 111]),
            .object (healthy "batch/2024-01-01/sub/b.txt".toList [97, 98, 99])])
          "batch/2024-01-01".toList "/d1".toList []).2.files).2.files :=
  have h := DownloadDirectory_same_tree
    (fun _ => [.object (healthy "batch/2024-01-01/a.txt".toList [104, 101, 108, 108, 111]),
      .object (healthy "batch/2024-01-01/sub/b.txt".toList [97, 98, 99])])
    "batch/2024-01-01".toList "/d1".toList "/d2".toList []
    (by
      intro o ho _
      simp only [List.mem_cons, Next.object.injEq, List.mem_singleton, List.not_mem_nil,
        or_false] at ho
      rcases ho with e | e <;> subst e <;> decide)
    (by decide) (by decide) (by decide)
  ⟨h.1 (by decide), h.2 (by decide) (by decide)⟩

end WorkerPools
